import Mathlib

/-!
Shallow embedding of the Stylus workshop NFT core (`src/art.rs`, `src/utils.rs`):
procedural image generation (gradient, Bresenham line, midpoint ellipse),
FNV-1a seed derivation, a stored-block zlib wrapper and a minimal PNG encoder.
Machine integers are modelled as `Nat`/`Int` with explicit `% 2^w` where the
Rust code relies on wrapping; `usize` indexing that can panic is modelled with
`Option`.
-/

set_option maxHeartbeats 1000000
set_option maxRecDepth 100000

namespace StylusNft

/-- A byte, as in Rust's `u8`. -/
abbrev Byte := Fin 256

/-- Truncating conversion to a byte (Rust `as u8`). -/
def byte (n : Nat) : Byte := ⟨n % 256, Nat.mod_lt _ (by omega)⟩

/-- Little-endian 2-byte encoding, Rust `(n as u16).to_le_bytes()`. -/
def le16 (n : Nat) : List Byte := [byte n, byte (n / 256)]

/-- Big-endian 4-byte encoding, Rust `(n as u32).to_be_bytes()`. -/
def be32 (n : Nat) : List Byte :=
  [byte (n / 16777216), byte (n / 65536), byte (n / 256), byte n]

/-- Little-endian fixed-width byte decomposition of a `U256`
(`token_id.as_le_slice()` in `generate_nft`): 32 bytes, least significant first. -/
def leBytes32 (n : Nat) : List Byte := (List.range 32).map fun i => byte (n / 256 ^ i)

/-- `usize::abs_diff` on `Nat`. -/
def absDiff (m n : Nat) : Nat := if n ≤ m then m - n else n - m

/-! ## `utils.rs`: Color -/

/-- Rust `struct Color { red: u8, green: u8, blue: u8 }`. -/
structure Color where
  red : Byte
  green : Byte
  blue : Byte
deriving DecidableEq, Repr

namespace Color

/-- `Color::from_hex` from `utils.rs`. -/
def from_hex (value : Nat) : Color :=
  { red := byte (value / 65536), green := byte (value / 256), blue := byte value }

end Color

/-- The pixel grid `Pixels<R, C>` (row-major rows of colors). -/
abbrev Pixels := List (List Color)

/-- Reading `pixels[y][x]`, `none` when out of bounds. -/
def lookup (px : Pixels) (x y : Nat) : Option Color :=
  px[y]? >>= fun row => row[x]?

/-- The in-place write `pixels[y][x] = color` for indices known to be in
bounds (out-of-range indices leave the grid unchanged). -/
def setPixT (px : Pixels) (x y : Nat) (c : Color) : Pixels :=
  px.set y ((px.getD y []).set x c)

/-- The in-place write `pixels[y][x] = color` as Rust executes it in
`draw_line`: indexing without a bounds check panics when out of range,
modelled by `none`. -/
def setPix? (px : Pixels) (x y : Nat) (c : Color) : Option Pixels :=
  match px[y]? with
  | none => none
  | some row => if x < row.length then some (px.set y (row.set x c)) else none

/-- `Image::new`: an `R` by `C` grid filled with a background color. -/
def newImage (R C : Nat) (bg : Color) : Pixels :=
  List.replicate R (List.replicate C bg)

/-- Well-formedness of a grid: `R` rows, each of length `C`.  In Rust this is
enforced by the `Image<R, C>` const generics. -/
def Wf (px : Pixels) (R C : Nat) : Prop :=
  px.length = R ∧ ∀ row ∈ px, row.length = C

instance (px : Pixels) (R C : Nat) : Decidable (Wf px R C) := by
  unfold Wf; infer_instance

/-! ## `utils.rs`: FNV-1a hasher -/

/-- `FNV_PRIME` from `utils.rs`. -/
def FNV_PRIME : Nat := 1099511628211

/-- The FNV-1a offset basis, `FnvHasher::default`. -/
def fnvInit : Nat := 14695981039346656037

/-- `FnvHasher::update`: per input byte, state = (state XOR byte) then
wrapping 64-bit multiplication by `FNV_PRIME`. -/
def fnvUpdate (state : Nat) (input : List Byte) : Nat :=
  input.foldl (fun s b => ((s ^^^ b.val) * FNV_PRIME) % 2 ^ 64) state

/-! ## `fastrand` PRNG (external crate used by `generate_nft`)

Modelled from the crate's published wyrand algorithm: 64-bit state seeded by
`Rng::with_seed`; each step adds `0xa0761d6478bd642f` (wrapping), multiplies
the new state with its xor by `0xe7037ed1a0b428db` into 128 bits, and xors the
two halves; `rng.u8(..)` over the full range truncates an output to 8 bits. -/

/-- One wyrand state advance (wrapping 64-bit add). -/
def wyStep (s : Nat) : Nat := (s + 0xa0761d6478bd642f) % 2 ^ 64

/-- The wyrand output for a (post-step) state. -/
def wyOut (s : Nat) : Nat :=
  let t := s * (s ^^^ 0xe7037ed1a0b428db)
  ((t / 2 ^ 64) ^^^ t) % 2 ^ 64

/-- The foreground color picked in `generate_nft`: three successive
`rng.u8(..)` draws, in the order red, green, blue. -/
def fgColor (seed : Nat) : Color :=
  let s1 := wyStep seed
  let s2 := wyStep s1
  let s3 := wyStep s2
  { red := byte (wyOut s1), green := byte (wyOut s2), blue := byte (wyOut s3) }

/-! ## Checksums (external `adler` and `crc` crates)

Modelled from the standard algorithm definitions the crates implement:
Adler-32 (RFC 1950) and CRC-32/ISO-HDLC in its reflected, bitwise form. -/

/-- `adler::adler32_slice`: running sums `a`, `b` modulo 65521, result
`b * 65536 + a`. -/
def adler32 (data : List Byte) : Nat :=
  let p := data.foldl
    (fun (ab : Nat × Nat) b =>
      let a := (ab.1 + b.val) % 65521
      (a, (ab.2 + a) % 65521))
    (1, 0)
  p.2 * 65536 + p.1

/-- One reflected CRC-32 bit step with polynomial `0xEDB88320`. -/
def crcBit (c : Nat) : Nat := if c % 2 = 1 then (c / 2) ^^^ 0xEDB88320 else c / 2

/-- `crc::Crc::<u32>::new(&crc::CRC_32_ISO_HDLC).checksum`: init `0xFFFFFFFF`,
xor in each byte, eight reflected bit steps per byte, final xor. -/
def crc32 (data : List Byte) : Nat :=
  (data.foldl (fun c b => crcBit^[8] (c ^^^ b.val)) 0xFFFFFFFF) ^^^ 0xFFFFFFFF

/-! ## `utils.rs`: `zlib_format` -/

/-- The body of `zlib_format`'s chunking loop: repeatedly `split_at
(min(len, 65535))`, emitting for each chunk one control byte (`1` only for the
last chunk), the length as two little-endian bytes, the bitwise complement of
the length (`!chunk.len() as u16`, the complement taken on `usize`) as two
little-endian bytes, then the chunk's raw bytes. -/
def zlibChunks (data : List Byte) : List Byte :=
  if h : data = [] then []
  else
    let n := min data.length 65535
    let rest := data.drop n
    (if rest = [] then (1 : Byte) else 0) ::
      (le16 n ++ le16 (2 ^ 64 - 1 - n) ++ data.take n ++ zlibChunks rest)
termination_by data.length
decreasing_by
  simp only [List.length_drop]
  have : data.length ≠ 0 := fun hl => h (List.eq_nil_of_length_eq_zero hl)
  omega

/-- `zlib_format` from `utils.rs`: the fixed empty stream for empty input,
otherwise header `08 1D`, the stored-block chunking of the data, and the
big-endian Adler-32 of the whole input. -/
def zlib_format (data : List Byte) : List Byte :=
  if data = [] then [byte 0x78, byte 0x9c, 3, 0, 0, 0, 0, 1]
  else byte 0x08 :: byte 0x1d :: (zlibChunks data ++ be32 (adler32 data))

/-- The number of chunks `zlib_format`'s loop emits. -/
def numChunks (data : List Byte) : Nat :=
  if h : data = [] then 0
  else 1 + numChunks (data.drop (min data.length 65535))
termination_by data.length
decreasing_by
  simp only [List.length_drop]
  have : data.length ≠ 0 := fun hl => h (List.eq_nil_of_length_eq_zero hl)
  omega

/-! Specification-side restatement of the chunk framing, following the words
of the spec (§4.3): split the data into consecutive chunks of at most 65535
bytes, emit each as control byte / length / complement / raw bytes, with bit 0
of the control byte set only on the last chunk.  Used to compare against the
loop in the source. -/

/-- Consecutive chunks of at most 65535 bytes. -/
def chunksOf (data : List Byte) : List (List Byte) :=
  if h : data = [] then []
  else data.take 65535 :: chunksOf (data.drop 65535)
termination_by data.length
decreasing_by
  simp only [List.length_drop]
  have : data.length ≠ 0 := fun hl => h (List.eq_nil_of_length_eq_zero hl)
  omega

/-- Spec-side chunk encoding: one control byte whose bit 0 is 1 only for the
last chunk, the length little-endian, its 16-bit complement (`65535 - len`)
little-endian, then the chunk. -/
def encodeChunksSpec : List (List Byte) → List Byte
  | [] => []
  | c :: cs =>
    (if cs = [] then (1 : Byte) else 0) ::
      (le16 c.length ++ le16 (65535 - c.length) ++ c ++ encodeChunksSpec cs)

/-- Spec-side restatement of the whole `zlib_format` output. -/
def zlibSpec (data : List Byte) : List Byte :=
  if data = [] then [byte 0x78, byte 0x9c, 3, 0, 0, 0, 0, 1]
  else byte 0x08 :: byte 0x1d :: (encodeChunksSpec (chunksOf data) ++ be32 (adler32 data))

/-! ## `utils.rs`: PNG encoding -/

/-- `Image::uncompressed_pixel_data`: for each row top to bottom, one filter
byte 0, then each pixel's red, green, blue bytes. -/
def uncompressed_pixel_data (px : Pixels) : List Byte :=
  px.flatMap fun row => (0 : Byte) :: row.flatMap fun p => [p.red, p.green, p.blue]

/-- The 8-byte PNG signature. -/
def pngSig : List Byte := [byte 0x89, byte 0x50, byte 0x4E, byte 0x47, byte 0x0D, byte 0x0A, byte 0x1A, byte 0x0A]

/-- ASCII bytes of the chunk tag `IHDR`. -/
def ihdrTag : List Byte := [73, 72, 68, 82]

/-- ASCII bytes of the chunk tag `IDAT`. -/
def idatTag : List Byte := [73, 68, 65, 84]

/-- ASCII bytes of the chunk tag `IEND`. -/
def iendTag : List Byte := [73, 69, 78, 68]

/-- The `append_chunk` closure in `make_png`: extend `out` with the payload
length (`as u32`, big-endian), remember the position, extend with the tag and
payload, then append the CRC-32 of everything from the remembered position. -/
def appendChunk (out : List Byte) (tag chunk : List Byte) : List Byte :=
  let out1 := out ++ be32 chunk.length
  let start := out1.length
  let out2 := out1 ++ tag ++ chunk
  out2 ++ be32 (crc32 (out2.drop start))

/-- `Image::make_png` for an `R` by `C` grid (the Rust const generics become
explicit arguments). -/
def make_png (R C : Nat) (px : Pixels) : List Byte :=
  let idat := zlib_format (uncompressed_pixel_data px)
  let out := pngSig
  let ihdr := be32 C ++ be32 R ++ [8, 2, 0, 0, 0]
  let out := appendChunk out ihdrTag ihdr
  let out := appendChunk out idatTag idat
  appendChunk out iendTag []

/-- Spec-side chunk layout: 4-byte big-endian length, the type tag, the
payload, and the big-endian CRC-32 over tag-then-payload. -/
def chunkSpec (tag payload : List Byte) : List Byte :=
  be32 payload.length ++ tag ++ payload ++ be32 (crc32 (tag ++ payload))

/-- Spec-side restatement of the whole PNG stream (§4.3 of the spec). -/
def pngSpec (R C : Nat) (px : Pixels) : List Byte :=
  pngSig ++
    chunkSpec ihdrTag (be32 C ++ be32 R ++ [8, 2, 0, 0, 0]) ++
    chunkSpec idatTag (zlib_format (uncompressed_pixel_data px)) ++
    chunkSpec iendTag []

/-! ## `art.rs`: `draw_line` (Bresenham) -/

/-- Loop state of `draw_line`: current coordinates and the error term. -/
structure LineSt where
  x : Nat
  y : Nat
  err : Int
deriving Repr, DecidableEq

/-- One iteration body of `draw_line`'s `while` loop (`THICK_LINES = false`):
both branch tests use the doubled error from the top of the iteration; the `x`
branch runs first.  `sxp`/`syp` record whether the step direction is `+1`
(Rust `saturating_add_signed(-1)` on `usize` is saturating subtraction,
i.e. `Nat` subtraction). -/
def lineStepF (dx dy : Int) (sxp syp : Bool) (s : LineSt) : LineSt :=
  let e2 := 2 * s.err
  let s1 := if e2 ≥ dy then
      { s with err := s.err + dy, x := if sxp then s.x + 1 else s.x - 1 }
    else s
  if e2 ≤ dx then
    { s1 with err := s1.err + dx, y := if syp then s1.y + 1 else s1.y - 1 }
  else s1

/-- `draw_line`'s `while x != end.x || y != end.y` loop, returning the cells
painted inside the loop in order (one per iteration, after both axis steps).
`fuel` bounds the iterations; `draw_line` supplies enough for the loop to
reach the endpoint (proved below). -/
def lineLoop (ex ey : Nat) (dx dy : Int) (sxp syp : Bool) : Nat → LineSt → List (Nat × Nat)
  | 0, _ => []
  | fuel + 1, s =>
    if s.x = ex ∧ s.y = ey then []
    else
      let s' := lineStepF dx dy sxp syp s
      (s'.x, s'.y) :: lineLoop ex ey dx dy sxp syp fuel s'

/-- The full sequence of cells `draw_line start end` paints, in order:
the start cell, then one cell per loop iteration. -/
def lineTrace (st en : Nat × Nat) : List (Nat × Nat) :=
  let a := absDiff en.1 st.1
  let b := absDiff en.2 st.2
  let dx : Int := a
  let dy : Int := -(b : Int)
  (st.1, st.2) ::
    lineLoop en.1 en.2 dx dy (decide (st.1 < en.1)) (decide (st.2 < en.2))
      (a + b + 1) ⟨st.1, st.2, dx + dy⟩

/-- `Image::draw_line`: paint every trace cell with unchecked indexing;
the first out-of-bounds write panics (`none`). -/
def draw_line (px : Pixels) (st en : Nat × Nat) (c : Color) : Option Pixels :=
  (lineTrace st en).foldlM (fun p q => setPix? p q.1 q.2 c) px

/-! ## `art.rs`: `draw_ellipse` (midpoint ellipse) -/

/-- `usize::checked_sub`. -/
def csub (m n : Nat) : Option Nat := if n ≤ m then some (m - n) else none

/-- The `draw` closure of `draw_ellipse`: a candidate is painted only when
both checked coordinate computations succeed and the cell is inside the `C`
by `R` framebuffer; otherwise it is silently dropped. -/
def candCell (C R : Nat) (q : Bool) (ox oy : Option Nat) : List (Nat × Nat) :=
  if q then
    match ox, oy with
    | some x, some y => if x < C ∧ y < R then [(x, y)] else []
    | _, _ => []
  else []

/-- The four quadrant candidates drawn at the top of each main-loop
iteration, in source order (quadrant I, II, III, IV). -/
def qCells (C R cx cy x y : Nat) (q0 q1 q2 q3 : Bool) : List (Nat × Nat) :=
  candCell C R q0 (some (cx + x)) (csub cy y) ++
  candCell C R q1 (csub cx x) (csub cy y) ++
  candCell C R q2 (csub cx x) (some (cy + y)) ++
  candCell C R q3 (some (cx + x)) (some (cy + y))

/-- Loop state of `draw_ellipse`'s main loop. -/
structure EllSt where
  x : Nat
  y : Nat
  dx : Int
  dy : Int
  err : Int
deriving Repr, DecidableEq

/-- The initial state of `draw_ellipse`'s main loop. -/
def initEll (a b : Nat) : EllSt :=
  { x := a, y := 0
    dx := (1 - 2 * (a : Int)) * ((b : Int) * b)
    dy := (a : Int) * a
    err := (1 - 2 * (a : Int)) * ((b : Int) * b) + (a : Int) * a }

/-- The `x` branch of the main loop after the `break` test: `x -= 1`,
`dx += 2 b²`, `error += dx`. -/
def ellX (b : Nat) (s : EllSt) : EllSt :=
  { s with x := s.x - 1, dx := s.dx + 2 * ((b : Int) * b),
           err := s.err + (s.dx + 2 * ((b : Int) * b)) }

/-- The `y` branch of the main loop: `y += 1`, `dy += 2 a²`, `error += dy`. -/
def ellY (a : Nat) (s : EllSt) : EllSt :=
  { s with y := s.y + 1, dy := s.dy + 2 * ((a : Int) * a),
           err := s.err + (s.dy + 2 * ((a : Int) * a)) }

/-- `draw_ellipse`'s main `loop`, accumulating the painted cells.  Both branch
tests use the doubled error from the top of the iteration; the `break` fires
in the `x` branch when `x = 0`, returning the cells and the final `y`.
`none` means the fuel ran out before the `break` (the Rust loop would still
be running). -/
def ellipseLoop (C R cx cy : Nat) (q0 q1 q2 q3 : Bool) (a b : Nat) :
    Nat → EllSt → List (Nat × Nat) → Option (List (Nat × Nat) × Nat)
  | 0, _, _ => none
  | fuel + 1, s, acc =>
    let acc := acc ++ qCells C R cx cy s.x s.y q0 q1 q2 q3
    let e2 := 2 * s.err
    if e2 ≥ s.dx ∧ s.x = 0 then some (acc, s.y)
    else
      let s1 := if e2 ≥ s.dx then ellX b s else s
      let s2 := if e2 ≤ s1.dy then ellY a s1 else s1
      ellipseLoop C R cx cy q0 q1 q2 q3 a b fuel s2 acc

/-- The body of the flat-ellipse fallback loop, indexed by the remaining
iteration count `b - y` (the loop increments `y` once per iteration). -/
def flatLoop (C R cx cy : Nat) (q01 q23 : Bool) : Nat → Nat → List (Nat × Nat)
  | 0, _ => []
  | n + 1, y =>
    candCell C R q01 (some cx) (csub cy (y + 1)) ++
    candCell C R q23 (some cx) (some (cy + (y + 1))) ++
    flatLoop C R cx cy q01 q23 n (y + 1)

/-- The flat-ellipse fallback loop `while y < b`, collecting its painted
cells: walk `y` up to `b`, plotting the single top and/or bottom column
points for the requested quadrants (it runs exactly `b - y` iterations). -/
def flatCells (C R cx cy : Nat) (q01 q23 : Bool) (b y : Nat) : List (Nat × Nat) :=
  flatLoop C R cx cy q01 q23 (b - y) y

/-- All cells `draw_ellipse` paints, in order.  The fuel `a + b + 2` is enough
for the main loop to reach its `break` (proved below), so the `none` branch is
unreachable. -/
def ellipseCells (C R cx cy a b : Nat) (q0 q1 q2 q3 : Bool) : List (Nat × Nat) :=
  match ellipseLoop C R cx cy q0 q1 q2 q3 a b (a + b + 2) (initEll a b) [] with
  | some (cells, yf) => cells ++ flatCells C R cx cy (q0 || q1) (q2 || q3) b yf
  | none => []

/-- `Image::draw_ellipse`: paint every (bounds-checked) candidate cell. -/
def draw_ellipse (C R cx cy a b : Nat) (q0 q1 q2 q3 : Bool) (c : Color) (px : Pixels) : Pixels :=
  (ellipseCells C R cx cy a b q0 q1 q2 q3).foldl (fun p q => setPixT p q.1 q.2 c) px

/-! ## `art.rs`: `draw_gradient` and `generate_nft` -/

/-- The blended color `draw_gradient` computes for cell `(x, y)`. -/
def gradColor (R C : Nat) (s e : Color) (x y : Nat) : Color :=
  let blend := 100 * (x + y) / (C + R)
  let lerp := fun (u v : Byte) => byte ((u.val * blend + v.val * (100 - blend)) / 100)
  { red := lerp s.red e.red, green := lerp s.green e.green, blue := lerp s.blue e.blue }

/-- `Image::draw_gradient`: for `x in 0..C`, for `y in 0..R`, overwrite
`pixels[y][x]` with the blend of `start` and `end`. -/
def draw_gradient (R C : Nat) (s e : Color) (px : Pixels) : Pixels :=
  (List.range C).foldl
    (fun p x => (List.range R).foldl (fun p2 y => setPixT p2 x y (gradColor R C s e x y)) p)
    px

/-- The seed `generate_nft` derives: one `FnvHasher` updated with the token
id's 32 little-endian bytes, then the 20 address bytes. -/
def nftSeed (addr : List Byte) (tokenId : Nat) : Nat :=
  fnvUpdate (fnvUpdate fnvInit (leBytes32 tokenId)) addr

/-- `generate_nft` from `art.rs`: seed an `Rng`, pick the foreground color,
fill a fresh 32×32 grid with the background, draw the gradient, two lines and
the lower half-ellipse.  `none` would mean one of the unchecked `draw_line`
writes panicked. -/
def generate_nft (addr : List Byte) (tokenId : Nat) : Option Pixels :=
  let fg := fgColor (nftSeed addr tokenId)
  let img := newImage 32 32 (Color.from_hex 0xe3066e)
  let img := draw_gradient 32 32 (Color.from_hex 0xff0000) (Color.from_hex 0x0000ff) img
  do
    let img ← draw_line img (4, 4) (4, 6) fg
    let img ← draw_line img (10, 4) (10, 6) fg
    some (draw_ellipse 32 32 7 9 3 3 false false true true fg img)

/-- The cells covered by `generate_nft`'s foreground shapes (the two line
segments and the half-ellipse); only these depend on the inputs. -/
def nftShapeCells : List (Nat × Nat) :=
  lineTrace (4, 4) (4, 6) ++ lineTrace (10, 4) (10, 6) ++
    ellipseCells 32 32 7 9 3 3 false false true true

/-! # Theorems -/

/-! ## `zlib_format` vs its specification (C2) -/

lemma chunksOf_nil : chunksOf [] = [] := by rw [chunksOf]; rfl

lemma chunksOf_ne_nil {data : List Byte} (h : data ≠ []) : chunksOf data ≠ [] := by
  rw [chunksOf]; simp [h]

lemma byte_eq_byte {m n : Nat} (h : m % 256 = n % 256) : byte m = byte n := by
  simp [byte, Fin.mk.injEq, h]

lemma le16_compl {n : Nat} (h : n ≤ 65535) : le16 (2 ^ 64 - 1 - n) = le16 (65535 - n) := by
  simp only [le16, List.cons.injEq, and_true]
  refine ⟨byte_eq_byte ?_, byte_eq_byte ?_⟩ <;> omega

lemma zlibChunks_eq_spec (data : List Byte) :
    zlibChunks data = encodeChunksSpec (chunksOf data) := by
  generalize hn : data.length = n
  induction n using Nat.strong_induction_on generalizing data with
  | _ n ih =>
    by_cases hd : data = []
    · subst hd; rw [zlibChunks, chunksOf]; rfl
    · have hlen : data.length ≠ 0 := fun hl => hd (List.eq_nil_of_length_eq_zero hl)
      rw [zlibChunks, chunksOf]
      simp only [hd, dite_false]
      by_cases hle : data.length ≤ 65535
      · have hmin : min data.length 65535 = data.length := by omega
        have htake : data.take 65535 = data := List.take_of_length_le hle
        have htake2 : data.take (min data.length 65535) = data := by
          rw [hmin]; exact List.take_of_length_le le_rfl
        have hdrop : data.drop (min data.length 65535) = [] := by
          rw [hmin]; exact List.drop_of_length_le le_rfl
        have hdrop2 : data.drop 65535 = [] := List.drop_of_length_le hle
        rw [encodeChunksSpec]
        simp only [hdrop, hdrop2, chunksOf_nil, hmin, htake, htake2, le16_compl hle]
        rw [zlibChunks]
        simp [encodeChunksSpec]
      · have hmin : min data.length 65535 = 65535 := by omega
        have hlen2 : (data.take 65535).length = 65535 := by
          rw [List.length_take]; omega
        have hdrop : data.drop (min data.length 65535) = data.drop 65535 := by rw [hmin]
        have hdne : data.drop 65535 ≠ [] := by
          intro hcon
          have := congrArg List.length hcon
          simp only [List.length_drop, List.length_nil] at this
          omega
        rw [encodeChunksSpec]
        simp only [hdrop, hmin, hlen2, chunksOf_ne_nil hdne, if_false,
          le16_compl (le_refl 65535)]
        have hrec := ih (data.drop 65535).length (by simp only [List.length_drop]; omega)
          (data.drop 65535) rfl
        simp only [hrec, List.cons.injEq, true_and]
        simp [hdne]

/-- C2: `zlib_format` emits the fixed 8-byte empty stream on empty input, and
otherwise the `08 1D` header, the data split into consecutive chunks of at
most 65535 bytes (control byte with bit 0 set only on the last chunk, length
little-endian, 16-bit complement of the length little-endian, raw bytes),
followed by the big-endian Adler-32 of the original data. -/
theorem claim_C2 (data : List Byte) : zlib_format data = zlibSpec data := by
  by_cases h : data = [] <;> simp [zlib_format, zlibSpec, h, zlibChunks_eq_spec]

/-! ## FNV-1a seed derivation (C3) -/

/-- C3: the seed `generate_nft` uses is the FNV-1a hash of the token id's
32 little-endian bytes followed by the address bytes, and updating one hasher
with the two pieces in sequence equals a single pass over the concatenation. -/
theorem claim_C3 :
    (∀ (addr : List Byte) (tokenId : Nat),
        nftSeed addr tokenId = fnvUpdate fnvInit (leBytes32 tokenId ++ addr)) ∧
    (∀ (s : Nat) (p q : List Byte), fnvUpdate (fnvUpdate s p) q = fnvUpdate s (p ++ q)) := by
  constructor
  · intro addr tokenId
    simp [nftSeed, fnvUpdate, List.foldl_append]
  · intro s p q
    simp [fnvUpdate, List.foldl_append]

/-! ## PNG layout (C5) -/

lemma appendChunk_eq (out tag chunk : List Byte) :
    appendChunk out tag chunk = out ++ chunkSpec tag chunk := by
  simp only [appendChunk, chunkSpec]
  rw [List.append_assoc (out ++ be32 chunk.length) tag chunk, List.drop_left]
  simp [List.append_assoc]

/-- C5: `make_png` is exactly the PNG signature, an IHDR chunk (width, height
big-endian, bit depth 8, color type 2, compression 0, filter 0, interlace 0),
an IDAT chunk containing `zlib_format` of the row serialization, and an empty
IEND chunk, each chunk framed as big-endian length, tag, payload, and
big-endian CRC-32 over tag-then-payload. -/
theorem claim_C5 (R C : Nat) (px : Pixels) : make_png R C px = pngSpec R C px := by
  simp [make_png, pngSpec, appendChunk_eq, List.append_assoc]

/-! ## Bresenham line analysis

Closed forms for the loop of `draw_line` in its x-major case
(`|dy| ≤ |dx|`, `|dx| ≥ 1`): after `k` iterations, `x` has advanced `k`
steps toward the endpoint, `y` has advanced `vSeq |dx| |dy| k` steps, and the
error term is `exErr`.  The y-major case is obtained by a coordinate swap. -/

/-- Number of minor-axis steps after `k` major-axis steps. -/
def vSeq (a b k : Nat) : Nat := (2 * b * k + a) / (2 * a)

/-- Position after `k` unit steps from `s` toward `e` (the direction Rust
fixes once from `end > start`; the negative step saturates like `usize`). -/
def posX (s e k : Nat) : Nat := if s < e then s + k else s - k

/-- The error term at the top of iteration `k` in the x-major case. -/
def exErr (a b k : Nat) : Int := (a : Int) * (1 + vSeq a b k) - (b : Int) * (1 + k)

/-- The loop state at the top of iteration `k` in the x-major case. -/
def lineStC (st en : Nat × Nat) (a b k : Nat) : LineSt :=
  ⟨posX st.1 en.1 k, posX st.2 en.2 (vSeq a b k), exErr a b k⟩

lemma posX_zero (s e : Nat) : posX s e 0 = s := by
  unfold posX; split <;> omega

lemma posX_succ_pos (s e k : Nat) (h : s < e) : posX s e k + 1 = posX s e (k + 1) := by
  simp only [posX, if_pos h]; omega

lemma posX_succ_neg (s e k : Nat) (h : ¬s < e) : posX s e k - 1 = posX s e (k + 1) := by
  simp only [posX, if_neg h]; omega

lemma boolStep (s e k : Nat) :
    (if decide (s < e) then posX s e k + 1 else posX s e k - 1) = posX s e (k + 1) := by
  simp only [decide_eq_true_eq]
  by_cases h : s < e
  · rw [if_pos h]; exact posX_succ_pos s e k h
  · rw [if_neg h]; exact posX_succ_neg s e k h

lemma posX_last (s e : Nat) : posX s e (absDiff e s) = e := by
  unfold posX absDiff; split_ifs <;> omega

lemma posX_ne (s e : Nat) {k : Nat} (h : k < absDiff e s) : posX s e k ≠ e := by
  unfold posX absDiff at *; split_ifs at * <;> omega

lemma posX_le_max (s e : Nat) {k : Nat} (h : k ≤ absDiff e s) : posX s e k ≤ max s e := by
  unfold posX absDiff at *; split_ifs at * <;> omega

lemma posX_inj (s e : Nat) {j k : Nat} (hj : j ≤ absDiff e s) (hk : k ≤ absDiff e s)
    (h : posX s e j = posX s e k) : j = k := by
  unfold posX absDiff at *; split_ifs at * <;> omega

lemma vSeq_zero {a : Nat} (b : Nat) (ha : 0 < a) : vSeq a b 0 = 0 := by
  unfold vSeq
  simp only [Nat.mul_zero, Nat.zero_add]
  exact Nat.div_eq_of_lt (by omega)

lemma vSeq_last {a : Nat} (b : Nat) (ha : 0 < a) : vSeq a b a = b := by
  unfold vSeq
  have h1 : 2 * b * a + a = a * (2 * b + 1) := by ring
  have h2 : 2 * a = a * 2 := by ring
  rw [h1, h2, Nat.mul_div_mul_left _ _ ha]
  omega

lemma vSeq_le {a b : Nat} (ha : 0 < a) {k : Nat} (hk : k ≤ a) : vSeq a b k ≤ b := by
  have h := vSeq_last b ha
  calc vSeq a b k ≤ vSeq a b a := Nat.div_le_div_right (by nlinarith)
    _ = b := h

lemma twoMul_exErr {a b : Nat} (ha : 0 < a) (k : Nat) :
    2 * exErr a b k = 3 * (a : Int) - 2 * (b : Int) - ((2 * b * k + a) % (2 * a) : Nat) := by
  have h := Nat.div_add_mod (2 * b * k + a) (2 * a)
  have h' : (2 * (a : Int)) * ((vSeq a b k : Nat) : Int) +
      (((2 * b * k + a) % (2 * a) : Nat) : Int) = 2 * (b : Int) * (k : Int) + (a : Int) := by
    unfold vSeq
    exact_mod_cast h
  unfold exErr
  linear_combination h'

lemma exErr_mod_lt {a b : Nat} (ha : 0 < a) (k : Nat) :
    (2 * b * k + a) % (2 * a) < 2 * a := Nat.mod_lt _ (by omega)

lemma exErr_x_fires {a b : Nat} (ha : 0 < a) (hb : b ≤ a) (k : Nat) :
    2 * exErr a b k ≥ -(b : Int) := by
  have h := twoMul_exErr (b := b) ha k
  have hr := exErr_mod_lt (b := b) ha k
  omega

lemma exErr_y_iff {a b : Nat} (ha : 0 < a) (k : Nat) :
    (2 * exErr a b k ≤ (a : Int)) ↔ 2 * a ≤ (2 * b * k + a) % (2 * a) + 2 * b := by
  have h := twoMul_exErr (b := b) ha k
  omega

lemma vSeq_succ {a b : Nat} (ha : 0 < a) (hb : b ≤ a) (k : Nat) :
    vSeq a b (k + 1) =
      vSeq a b k + (if 2 * a ≤ (2 * b * k + a) % (2 * a) + 2 * b then 1 else 0) := by
  have h := Nat.div_add_mod (2 * b * k + a) (2 * a)
  have hr := exErr_mod_lt (b := b) ha k
  have hexp : 2 * b * (k + 1) + a =
      ((2 * b * k + a) % (2 * a) + 2 * b) + 2 * a * ((2 * b * k + a) / (2 * a)) := by
    zify at h ⊢
    linear_combination - h
  unfold vSeq
  rw [hexp, Nat.add_mul_div_left _ _ (by omega : 0 < 2 * a)]
  split_ifs with hc
  · have h1 : ((2 * b * k + a) % (2 * a) + 2 * b) / (2 * a) = 1 :=
      Nat.div_eq_of_lt_le (by omega) (by omega)
    rw [h1]; omega
  · have h0 : ((2 * b * k + a) % (2 * a) + 2 * b) / (2 * a) = 0 :=
      Nat.div_eq_of_lt (by omega)
    rw [h0]; omega

lemma exErr_succ {a b : Nat} (ha : 0 < a) (hb : b ≤ a) (k : Nat) :
    exErr a b (k + 1) =
      exErr a b k + -(b : Int) + (if 2 * exErr a b k ≤ (a : Int) then (a : Int) else 0) := by
  have hv := vSeq_succ ha hb k
  by_cases hc : 2 * exErr a b k ≤ (a : Int)
  · have hc' := (exErr_y_iff (b := b) ha k).mp hc
    simp only [hc', if_true] at hv
    simp only [hc, if_true]
    unfold exErr
    rw [hv]
    push_cast
    ring
  · have hc' : ¬2 * a ≤ (2 * b * k + a) % (2 * a) + 2 * b :=
      fun h => hc ((exErr_y_iff (b := b) ha k).mpr h)
    simp only [hc', if_false, Nat.add_zero] at hv
    simp only [hc, if_false]
    unfold exErr
    rw [hv]
    push_cast
    ring

lemma lineStepF_closed (st en : Nat × Nat) {a b : Nat} (ha : 0 < a) (hb : b ≤ a) (k : Nat) :
    lineStepF (a : Int) (-(b : Int)) (decide (st.1 < en.1)) (decide (st.2 < en.2))
      (lineStC st en a b k) = lineStC st en a b (k + 1) := by
  have hx := exErr_x_fires ha hb k
  have he := exErr_succ ha hb k
  have hv := vSeq_succ ha hb k
  have hbx := boolStep st.1 en.1 k
  have hby2 := boolStep st.2 en.2 (vSeq a b k)
  simp only [lineStepF, lineStC]
  rw [if_pos hx]
  by_cases hc : 2 * exErr a b k ≤ (a : Int)
  · have hcv := (exErr_y_iff (b := b) ha k).mp hc
    simp only [hcv, if_true] at hv
    rw [if_pos hc]
    simp only [LineSt.mk.injEq]
    refine ⟨hbx, ?_, ?_⟩
    · rw [hv]; exact hby2
    · rw [he]; simp only [hc, if_true, add_zero]
      try ring
  · have hcv : ¬2 * a ≤ (2 * b * k + a) % (2 * a) + 2 * b :=
      fun h => hc ((exErr_y_iff (b := b) ha k).mpr h)
    simp only [hcv, if_false, Nat.add_zero] at hv
    rw [if_neg hc]
    simp only [LineSt.mk.injEq]
    refine ⟨hbx, ?_, ?_⟩
    · rw [hv]
    · rw [he]; simp only [hc, if_false, add_zero]
      try ring

lemma lineLoop_closed (st en : Nat × Nat) {a b : Nat} (ha : 0 < a) (hb : b ≤ a)
    (hax : a = absDiff en.1 st.1) (hby : b = absDiff en.2 st.2) :
    ∀ fuel k, k ≤ a → a - k < fuel →
      lineLoop en.1 en.2 (a : Int) (-(b : Int)) (decide (st.1 < en.1)) (decide (st.2 < en.2))
          fuel (lineStC st en a b k)
        = (List.range' (k + 1) (a - k)).map
            (fun j => (posX st.1 en.1 j, posX st.2 en.2 (vSeq a b j))) := by
  intro fuel
  induction fuel with
  | zero => intro k _ hf; omega
  | succ fuel ih =>
    intro k hk hf
    rw [lineLoop]
    by_cases hka : k = a
    · subst hka
      have hx : posX st.1 en.1 k = en.1 := by rw [hax]; exact posX_last _ _
      have hy : posX st.2 en.2 (vSeq k b k) = en.2 := by
        rw [vSeq_last b ha, hby]; exact posX_last _ _
      simp [lineStC, hx, hy]
    · have hklt : k < a := by omega
      have hx : posX st.1 en.1 k ≠ en.1 := by rw [hax] at hklt; exact posX_ne _ _ hklt
      have hcond : ¬((lineStC st en a b k).x = en.1 ∧ (lineStC st en a b k).y = en.2) := by
        simp only [lineStC, not_and]
        intro hcx; exact absurd hcx hx
      rw [if_neg hcond, lineStepF_closed st en ha hb k]
      have hrange : a - k = (a - (k + 1)) + 1 := by omega
      rw [hrange, List.range'_succ]
      simp only [List.map_cons, lineStC]
      congr 1
      exact ih (k + 1) (by omega) (by omega)

lemma lineTrace_init (st en : Nat × Nat) {a b : Nat} (ha : 0 < a) :
    (⟨st.1, st.2, (a : Int) + -(b : Int)⟩ : LineSt) = lineStC st en a b 0 := by
  unfold lineStC exErr
  simp only [LineSt.mk.injEq]
  refine ⟨(posX_zero _ _).symm, ?_, ?_⟩
  · rw [vSeq_zero b ha]; exact (posX_zero _ _).symm
  · rw [vSeq_zero b ha]; push_cast; ring

/-- The x-major closed form of the whole painted trace. -/
lemma lineTrace_closed (st en : Nat × Nat) (ha : 0 < absDiff en.1 st.1)
    (hb : absDiff en.2 st.2 ≤ absDiff en.1 st.1) :
    lineTrace st en = (List.range' 0 (absDiff en.1 st.1 + 1)).map
      (fun j => (posX st.1 en.1 j,
                 posX st.2 en.2 (vSeq (absDiff en.1 st.1) (absDiff en.2 st.2) j))) := by
  simp only [lineTrace]
  rw [lineTrace_init st en ha,
    lineLoop_closed st en ha hb rfl rfl
      (absDiff en.1 st.1 + absDiff en.2 st.2 + 1) 0 (by omega) (by omega),
    List.range'_succ]
  simp only [List.map_cons, Nat.sub_zero, posX_zero, vSeq_zero _ ha, Nat.zero_add]

/-- Degenerate case: start = end paints exactly the single start cell. -/
lemma lineTrace_self (st en : Nat × Nat) (h1 : absDiff en.1 st.1 = 0)
    (h2 : absDiff en.2 st.2 = 0) : lineTrace st en = [(st.1, st.2)] := by
  have hx : en.1 = st.1 := by unfold absDiff at h1; split at h1 <;> omega
  have hy : en.2 = st.2 := by unfold absDiff at h2; split at h2 <;> omega
  simp [lineTrace, h1, h2, hx, hy, lineLoop]

/-! The y-major case follows from the x-major case by swapping the two
coordinates: the loop body is symmetric under exchanging the roles of the
axes and negating the error term. -/

/-- Coordinate swap on loop states. -/
def swapSt (s : LineSt) : LineSt := ⟨s.y, s.x, -s.err⟩

lemma swapSt_swapSt (s : LineSt) : swapSt (swapSt s) = s := by simp [swapSt]

lemma lineStepF_swap (dx dy : Int) (sxp syp : Bool) (s : LineSt) :
    lineStepF dx dy sxp syp s = swapSt (lineStepF (-dy) (-dx) syp sxp (swapSt s)) := by
  obtain ⟨X, Y, E⟩ := s
  simp only [lineStepF, swapSt]
  by_cases h1 : 2 * E ≥ dy <;> by_cases h2 : 2 * E ≤ dx
  · rw [if_pos h1, if_pos (show 2 * -E ≥ -dx by omega),
      if_pos (show 2 * -E ≤ -dy by omega)]
    rw [if_pos (show 2 * E ≤ dx from h2)]
    simp only [LineSt.mk.injEq, true_and]
    ring
  · rw [if_pos h1, if_neg (show ¬2 * -E ≥ -dx by omega),
      if_pos (show 2 * -E ≤ -dy by omega)]
    rw [if_neg h2]
    simp only [LineSt.mk.injEq, true_and]
    ring
  · rw [if_neg h1, if_pos (show 2 * -E ≥ -dx by omega),
      if_neg (show ¬2 * -E ≤ -dy by omega)]
    rw [if_pos h2]
    simp only [LineSt.mk.injEq, true_and]
    ring
  · rw [if_neg h1, if_neg (show ¬2 * -E ≥ -dx by omega),
      if_neg (show ¬2 * -E ≤ -dy by omega)]
    rw [if_neg h2]
    simp only [LineSt.mk.injEq, true_and]
    ring

lemma lineLoop_swap (ex ey : Nat) (dx dy : Int) (sxp syp : Bool) :
    ∀ fuel s, lineLoop ex ey dx dy sxp syp fuel s
      = (lineLoop ey ex (-dy) (-dx) syp sxp fuel (swapSt s)).map Prod.swap := by
  intro fuel
  induction fuel with
  | zero => intro s; rfl
  | succ fuel ih =>
    intro s
    rw [lineLoop, lineLoop]
    simp only [swapSt]
    by_cases hc : s.x = ex ∧ s.y = ey
    · rw [if_pos hc, if_pos ⟨hc.2, hc.1⟩]
      rfl
    · have hc' : ¬(s.y = ey ∧ s.x = ex) := fun h => hc ⟨h.2, h.1⟩
      rw [if_neg hc, if_neg hc', List.map_cons]
      have hs := lineStepF_swap dx dy sxp syp s
      congr 1
      · rw [hs]; rfl
      · rw [ih (lineStepF dx dy sxp syp s), hs, swapSt_swapSt]
        rfl

lemma lineTrace_swap (st en : Nat × Nat) :
    lineTrace st en = (lineTrace (st.2, st.1) (en.2, en.1)).map Prod.swap := by
  simp only [lineTrace]
  rw [List.map_cons]
  congr 1
  rw [lineLoop_swap en.1 en.2 _ _ _ _ _ ⟨st.1, st.2, _⟩]
  have e3 : absDiff en.1 st.1 + absDiff en.2 st.2 + 1
      = absDiff en.2 st.2 + absDiff en.1 st.1 + 1 := by omega
  simp only [swapSt, neg_neg, e3]
  congr 2
  ring

/-- Everything C4/C7 need about the painted trace, x-major case. -/
lemma lineTrace_spec_xmajor (st en : Nat × Nat) (ha : 0 < absDiff en.1 st.1)
    (hb : absDiff en.2 st.2 ≤ absDiff en.1 st.1) :
    (st.1, st.2) ∈ lineTrace st en ∧ (en.1, en.2) ∈ lineTrace st en ∧
    (lineTrace st en).Nodup ∧
    (lineTrace st en).length = max (absDiff en.1 st.1) (absDiff en.2 st.2) + 1 ∧
    ∀ q ∈ lineTrace st en, q.1 ≤ max st.1 en.1 ∧ q.2 ≤ max st.2 en.2 := by
  have ht := lineTrace_closed st en ha hb
  set a := absDiff en.1 st.1 with hax
  set b := absDiff en.2 st.2 with hby
  have hmem : ∀ j, j ≤ a →
      (posX st.1 en.1 j, posX st.2 en.2 (vSeq a b j)) ∈ lineTrace st en := by
    intro j hj
    rw [ht]
    exact List.mem_map.mpr ⟨j, List.mem_range'.mpr ⟨j, by omega, by omega⟩, rfl⟩
  refine ⟨?_, ?_, ?_, ?_, ?_⟩
  · have := hmem 0 (by omega)
    rwa [posX_zero, vSeq_zero b ha, posX_zero] at this
  · have h := hmem a le_rfl
    rw [vSeq_last b ha] at h
    rw [hax, hby] at h
    rwa [posX_last, posX_last] at h
  · rw [ht]
    refine List.Nodup.map_on ?_ (List.nodup_range' _ _)
    intro x hx y hy hf
    have hx' : x ≤ a := by
      obtain ⟨i, hi, rfl⟩ := List.mem_range'.mp hx; omega
    have hy' : y ≤ a := by
      obtain ⟨i, hi, rfl⟩ := List.mem_range'.mp hy; omega
    exact posX_inj st.1 en.1 (hax ▸ hx') (hax ▸ hy') (congrArg Prod.fst hf)
  · rw [ht]
    simp only [List.length_map, List.length_range']
    omega
  · intro q hq
    rw [ht] at hq
    obtain ⟨j, hj, rfl⟩ := List.mem_map.mp hq
    obtain ⟨i, hi, rfl⟩ := List.mem_range'.mp hj
    have hja : 0 + 1 * i ≤ a := by omega
    exact ⟨posX_le_max st.1 en.1 (hax ▸ hja),
      posX_le_max st.2 en.2 (hby ▸ vSeq_le ha (k := 0 + 1 * i) hja)⟩

/-- Everything C4/C7 need about the painted trace, all cases. -/
lemma lineTrace_spec (st en : Nat × Nat) :
    (st.1, st.2) ∈ lineTrace st en ∧ (en.1, en.2) ∈ lineTrace st en ∧
    (lineTrace st en).Nodup ∧
    (lineTrace st en).length = max (absDiff en.1 st.1) (absDiff en.2 st.2) + 1 ∧
    ∀ q ∈ lineTrace st en, q.1 ≤ max st.1 en.1 ∧ q.2 ≤ max st.2 en.2 := by
  by_cases hxm : absDiff en.2 st.2 ≤ absDiff en.1 st.1
  · by_cases ha : 0 < absDiff en.1 st.1
    · exact lineTrace_spec_xmajor st en ha hxm
    · have h1 : absDiff en.1 st.1 = 0 := by omega
      have h2 : absDiff en.2 st.2 = 0 := by omega
      have hx : en.1 = st.1 := by unfold absDiff at h1; split at h1 <;> omega
      have hy : en.2 = st.2 := by unfold absDiff at h2; split at h2 <;> omega
      rw [lineTrace_self st en h1 h2, h1, h2, hx, hy]
      refine ⟨by simp, by simp, by simp, by simp, ?_⟩
      intro q hq
      simp only [List.mem_singleton] at hq
      subst hq
      simp
  · have hswap := lineTrace_swap st en
    have hb' : 0 < absDiff en.2 st.2 := by omega
    obtain ⟨m1, m2, hnd, hlen, hbnd⟩ :=
      lineTrace_spec_xmajor (st.2, st.1) (en.2, en.1) hb' (by simpa using le_of_lt (by omega))
    refine ⟨?_, ?_, ?_, ?_, ?_⟩
    · rw [hswap]
      exact List.mem_map.mpr ⟨(st.2, st.1), m1, rfl⟩
    · rw [hswap]
      exact List.mem_map.mpr ⟨(en.2, en.1), m2, rfl⟩
    · rw [hswap]
      exact hnd.map (fun x y h => Prod.swap_injective h)
    · rw [hswap]
      rw [List.length_map, hlen]
      simp only [absDiff]
      omega
    · intro q hq
      rw [hswap] at hq
      obtain ⟨p, hp, rfl⟩ := List.mem_map.mp hq
      obtain ⟨hp1, hp2⟩ := hbnd p hp
      constructor
      · simpa using hp2
      · simpa using hp1

/-! ## Painting lemmas -/

lemma setPix?_ok {px : Pixels} {R C x y : Nat} {c : Color} (hwf : Wf px R C)
    (hx : x < C) (hy : y < R) : ∃ px', setPix? px x y c = some px' ∧ Wf px' R C := by
  obtain ⟨hlen, hrows⟩ := hwf
  have hylen : y < px.length := by omega
  have hrow : px[y]? = some px[y] := List.getElem?_eq_getElem hylen
  have hrl : px[y].length = C := hrows _ (List.getElem_mem hylen)
  refine ⟨px.set y (px[y].set x c), ?_, ?_, ?_⟩
  · simp [setPix?, hrow, hrl, hx]
  · simp [hlen]
  · intro row hrow'
    rcases List.mem_or_eq_of_mem_set hrow' with h | h
    · exact hrows _ h
    · subst h; simp [hrl]

lemma setPix?_oob {px : Pixels} {R C x y : Nat} {c : Color} (hwf : Wf px R C)
    (h : ¬(x < C ∧ y < R)) : setPix? px x y c = none := by
  obtain ⟨hlen, hrows⟩ := hwf
  by_cases hy : y < R
  · have hx : ¬x < C := fun hx => h ⟨hx, hy⟩
    have hylen : y < px.length := by omega
    have hrow : px[y]? = some px[y] := List.getElem?_eq_getElem hylen
    have hrl : px[y].length = C := hrows _ (List.getElem_mem hylen)
    simp [setPix?, hrow, hrl, hx]
  · have hnone : px[y]? = none := by
      rw [List.getElem?_eq_none_iff]
      omega
    simp [setPix?, hnone]

lemma paintM_some {R C : Nat} {c : Color} :
    ∀ (cells : List (Nat × Nat)) (px : Pixels), Wf px R C →
      (∀ q ∈ cells, q.1 < C ∧ q.2 < R) →
      ∃ px', cells.foldlM (fun p q => setPix? p q.1 q.2 c) px = some px' ∧ Wf px' R C := by
  intro cells
  induction cells with
  | nil => intro px hwf _; exact ⟨px, rfl, hwf⟩
  | cons q tl ih =>
    intro px hwf hb
    obtain ⟨hq1, hq2⟩ := hb q (List.mem_cons_self _ _)
    obtain ⟨px', hset, hwf'⟩ := setPix?_ok (c := c) hwf hq1 hq2
    obtain ⟨px'', hrec, hwf''⟩ := ih px' hwf' (fun r hr => hb r (List.mem_cons_of_mem _ hr))
    exact ⟨px'', by simp [List.foldlM, hset, hrec], hwf''⟩

lemma paintM_none {R C : Nat} {c : Color} :
    ∀ (cells : List (Nat × Nat)) (px : Pixels), Wf px R C →
      (∃ q ∈ cells, ¬(q.1 < C ∧ q.2 < R)) →
      cells.foldlM (fun p q => setPix? p q.1 q.2 c) px = none := by
  intro cells
  induction cells with
  | nil => intro px _ hex; simp at hex
  | cons q tl ih =>
    intro px hwf hex
    by_cases hq : q.1 < C ∧ q.2 < R
    · obtain ⟨px', hset, hwf'⟩ := setPix?_ok (c := c) hwf hq.1 hq.2
      have hex' : ∃ r ∈ tl, ¬(r.1 < C ∧ r.2 < R) := by
        obtain ⟨r, hr, hrb⟩ := hex
        rcases List.mem_cons.mp hr with rfl | hr'
        · exact absurd hq hrb
        · exact ⟨r, hr', hrb⟩
      simp [List.foldlM, hset, ih px' hwf' hex']
    · simp [List.foldlM, setPix?_oob hwf hq]

/-! ## Ellipse candidate cells are bounds-checked -/

lemma candCell_bound {C R : Nat} {b : Bool} {ox oy : Option Nat} :
    ∀ q ∈ candCell C R b ox oy, q.1 < C ∧ q.2 < R := by
  intro q hq
  unfold candCell at hq
  split at hq
  · rcases ox with _ | x <;> rcases oy with _ | y <;> simp only at hq
    · simp at hq
    · simp at hq
    · simp at hq
    · split at hq
      · simp only [List.mem_singleton] at hq
        subst hq
        assumption
      · simp at hq
  · simp at hq

lemma qCells_bound {C R cx cy x y : Nat} {q0 q1 q2 q3 : Bool} :
    ∀ q ∈ qCells C R cx cy x y q0 q1 q2 q3, q.1 < C ∧ q.2 < R := by
  intro q hq
  unfold qCells at hq
  rcases List.mem_append.mp hq with h | h
  rcases List.mem_append.mp h with h | h
  rcases List.mem_append.mp h with h | h
  all_goals exact candCell_bound _ h

lemma flatLoop_bound {C R cx cy : Nat} {q01 q23 : Bool} :
    ∀ n y, ∀ q ∈ flatLoop C R cx cy q01 q23 n y, q.1 < C ∧ q.2 < R := by
  intro n
  induction n with
  | zero => intro y q hq; simp [flatLoop] at hq
  | succ n ih =>
    intro y q hq
    rw [flatLoop] at hq
    rcases List.mem_append.mp hq with h | h
    · rcases List.mem_append.mp h with h | h
      · exact candCell_bound _ h
      · exact candCell_bound _ h
    · exact ih (y + 1) q h

lemma flatCells_bound {C R cx cy : Nat} {q01 q23 : Bool} {b : Nat} :
    ∀ y, ∀ q ∈ flatCells C R cx cy q01 q23 b y, q.1 < C ∧ q.2 < R := by
  intro y q hq
  exact flatLoop_bound _ _ q hq

lemma ellipseLoop_bound {C R cx cy a b : Nat} {q0 q1 q2 q3 : Bool} :
    ∀ fuel s acc cells yf, (∀ q ∈ acc, q.1 < C ∧ q.2 < R) →
      ellipseLoop C R cx cy q0 q1 q2 q3 a b fuel s acc = some (cells, yf) →
      ∀ q ∈ cells, q.1 < C ∧ q.2 < R := by
  intro fuel
  induction fuel with
  | zero => intro s acc cells yf _ h; simp [ellipseLoop] at h
  | succ fuel ih =>
    intro s acc cells yf hacc h
    rw [ellipseLoop] at h
    have hacc' : ∀ q ∈ acc ++ qCells C R cx cy s.x s.y q0 q1 q2 q3, q.1 < C ∧ q.2 < R := by
      intro q hq
      rcases List.mem_append.mp hq with hh | hh
      · exact hacc q hh
      · exact qCells_bound q hh
    split at h
    · have hc : acc ++ qCells C R cx cy s.x s.y q0 q1 q2 q3 = cells := by
        simpa using congrArg Prod.fst (Option.some.inj h)
      intro q hq
      exact hacc' q (hc ▸ hq)
    · exact ih _ _ _ _ hacc' h

/-- All cells `draw_ellipse` would paint pass the bounds check. -/
lemma ellipseCells_bound {C R cx cy a b : Nat} {q0 q1 q2 q3 : Bool} :
    ∀ q ∈ ellipseCells C R cx cy a b q0 q1 q2 q3, q.1 < C ∧ q.2 < R := by
  intro q hq
  unfold ellipseCells at hq
  split at hq
  · rename_i cells yf heq
    rcases List.mem_append.mp hq with h | h
    · exact ellipseLoop_bound _ _ _ _ _ (by simp) heq q h
    · exact flatCells_bound yf q h
  · simp at hq


/-! ## Line drawing (C4, C1) -/

/-- C4: for in-bounds endpoints, `draw_line` completes without a fault, paints
both the start and the end cell, and paints exactly
`max(|dx|, |dy|) + 1` distinct cells (one cell when start = end); all cases
are produced by the single Bresenham loop of the source. -/
theorem claim_C4 (R C : Nat) (px : Pixels) (st en : Nat × Nat) (c : Color)
    (hwf : Wf px R C) (h1 : st.1 < C) (h2 : st.2 < R) (h3 : en.1 < C) (h4 : en.2 < R) :
    (∃ px', draw_line px st en c = some px') ∧
    (st.1, st.2) ∈ lineTrace st en ∧ (en.1, en.2) ∈ lineTrace st en ∧
    (lineTrace st en).toFinset.card
      = max (absDiff en.1 st.1) (absDiff en.2 st.2) + 1 := by
  obtain ⟨hm1, hm2, hnd, hlen, hbnd⟩ := lineTrace_spec st en
  refine ⟨?_, hm1, hm2, ?_⟩
  · unfold draw_line
    have hinb : ∀ q ∈ lineTrace st en, q.1 < C ∧ q.2 < R := by
      intro q hq
      have := hbnd q hq
      constructor <;> omega
    obtain ⟨px', hp, _⟩ := paintM_some (lineTrace st en) px hwf hinb
    exact ⟨px', hp⟩
  · rw [List.toFinset_card_of_nodup hnd, hlen]

theorem claim_C4_witness :
    (∃ px', draw_line (newImage 4 4 (Color.from_hex 0xe3066e)) (0, 0) (3, 2)
        (Color.from_hex 0xff0000) = some px') ∧
    ((0, 0) : Nat × Nat) ∈ lineTrace (0, 0) (3, 2) ∧
    ((3, 2) : Nat × Nat) ∈ lineTrace (0, 0) (3, 2) ∧
    (lineTrace (0, 0) (3, 2)).toFinset.card = max (absDiff 3 0) (absDiff 2 0) + 1 :=
  claim_C4 4 4 (newImage 4 4 (Color.from_hex 0xe3066e)) (0, 0) (3, 2)
    (Color.from_hex 0xff0000) (by decide) (by decide) (by decide) (by decide) (by decide)

/-- C1 as stated is false for `draw_line`: the unchecked write
`self.pixels[y][x] = color` panics on the first out-of-bounds coordinate.
Concretely, drawing from (0,0) to (2,0) on a 1×1 framebuffer faults (`none`)
instead of silently dropping the out-of-bounds cells. -/
theorem claim_C1_counterexample :
    draw_line [[Color.from_hex 0xe3066e]] (0, 0) (2, 0) (Color.from_hex 0xff0000) = none := by
  decide

/-- C1 amended: `draw_ellipse` checks every candidate coordinate against the
framebuffer bounds before writing and silently drops out-of-bounds candidates
(every cell it paints is in bounds, for all centers, radii and quadrant
masks); `draw_line`, by contrast, indexes without a bounds check and faults as
soon as its trace leaves the framebuffer. -/
theorem claim_C1_amended :
    (∀ (C R cx cy a b : Nat) (q0 q1 q2 q3 : Bool),
        ∀ q ∈ ellipseCells C R cx cy a b q0 q1 q2 q3, q.1 < C ∧ q.2 < R) ∧
    (∀ (R C : Nat) (px : Pixels) (st en : Nat × Nat) (c : Color), Wf px R C →
        (∃ q ∈ lineTrace st en, ¬(q.1 < C ∧ q.2 < R)) →
        draw_line px st en c = none) := by
  constructor
  · intro C R cx cy a b q0 q1 q2 q3 q hq
    exact ellipseCells_bound q hq
  · intro R C px st en c hwf hex
    unfold draw_line
    exact paintM_none (lineTrace st en) px hwf hex

theorem claim_C1_amended_witness :
    draw_line [[Color.from_hex 0xe3066e], [Color.from_hex 0xe3066e]] (0, 0) (0, 5)
      (Color.from_hex 0xff0000) = none :=
  claim_C1_amended.2 2 1 [[Color.from_hex 0xe3066e], [Color.from_hex 0xe3066e]]
    (0, 0) (0, 5) (Color.from_hex 0xff0000) (by decide) (by decide)


/-! ## Ellipse main-loop termination

The loop state satisfies the midpoint-ellipse invariant
`err = b²(x−1)² + a²(y+1)² − a²b²`, `dx = (1−2x)b²`, `dy = (2y+1)a²`.
With `a ≥ 1` every non-breaking iteration decrements `x` or increments `y`
(bounded by `b`), and once `x` hits 0 the next iteration breaks, so the loop
finishes within `a + b + 2` iterations. -/

/-- The midpoint-ellipse loop invariant. -/
def EllInv (a b : Nat) (s : EllSt) : Prop :=
  s.dx = (1 - 2 * (s.x : Int)) * ((b : Int) * b) ∧
  s.dy = (2 * (s.y : Int) + 1) * ((a : Int) * a) ∧
  s.err = (b : Int) * b * ((s.x : Int) - 1) ^ 2 + (a : Int) * a * ((s.y : Int) + 1) ^ 2
    - (a : Int) * a * ((b : Int) * b) ∧
  s.x ≤ a ∧ s.y ≤ b ∧ (s.x = 0 → 2 * s.err ≥ s.dx)

lemma ellInv_init {a b : Nat} (ha : 0 < a) : EllInv a b (initEll a b) := by
  refine ⟨rfl, by push_cast [initEll]; ring, ?_, le_rfl, Nat.zero_le _, ?_⟩
  · show (1 - 2 * (a : Int)) * ((b : Int) * b) + (a : Int) * a
      = (b : Int) * b * ((a : Int) - 1) ^ 2 + (a : Int) * a * ((0 : Int) + 1) ^ 2
        - (a : Int) * a * ((b : Int) * b)
    ring
  · intro h
    simp only [initEll] at h
    omega

/-- If the `y` branch can fire (under the invariant, with `a ≥ 1`), `y` is
still strictly below `b`. -/
lemma ellInv_y_lt {a b : Nat} (ha : 0 < a) {s : EllSt} (hinv : EllInv a b s)
    (hyf : 2 * s.err ≤ s.dy) : s.y < b := by
  obtain ⟨hdx, hdy, herr, hxa, hyb, hbr⟩ := hinv
  have hA : (1 : Int) ≤ (a : Int) := by exact_mod_cast ha
  have hsq : (0 : Int) ≤ ((s.x : Int) - 1) ^ 2 := sq_nonneg _
  have hApos : (0 : Int) < (a : Int) * a := by nlinarith
  have h1 : (a : Int) * a * (2 * ((s.y : Int) + 1) ^ 2 - 2 * ((b : Int) * b)
      - 2 * (s.y : Int) - 1) ≤ 0 := by
    rw [hdy, herr] at hyf
    nlinarith [mul_nonneg (mul_nonneg (Int.natCast_nonneg b) (Int.natCast_nonneg b)) hsq]
  have h2 : 2 * ((s.y : Int) + 1) ^ 2 - 2 * ((b : Int) * b) - 2 * (s.y : Int) - 1 ≤ 0 := by
    by_contra hcon
    push_neg at hcon
    nlinarith
  have h3 : (s.y : Int) < (b : Int) := by nlinarith
  exact_mod_cast h3

/-- One non-breaking iteration preserves the invariant and decreases
`x + (b - y)`. -/
lemma ellInv_step {a b : Nat} (ha : 0 < a) {s : EllSt} (hinv : EllInv a b s)
    (hnb : ¬(2 * s.err ≥ s.dx ∧ s.x = 0)) :
    EllInv a b
      (if 2 * s.err ≤ (if 2 * s.err ≥ s.dx then ellX b s else s).dy
        then ellY a (if 2 * s.err ≥ s.dx then ellX b s else s)
        else (if 2 * s.err ≥ s.dx then ellX b s else s)) ∧
    (if 2 * s.err ≤ (if 2 * s.err ≥ s.dx then ellX b s else s).dy
        then ellY a (if 2 * s.err ≥ s.dx then ellX b s else s)
        else (if 2 * s.err ≥ s.dx then ellX b s else s)).x +
      (b - (if 2 * s.err ≤ (if 2 * s.err ≥ s.dx then ellX b s else s).dy
        then ellY a (if 2 * s.err ≥ s.dx then ellX b s else s)
        else (if 2 * s.err ≥ s.dx then ellX b s else s)).y)
      < s.x + (b - s.y) := by
  obtain ⟨hdx, hdy, herr, hxa, hyb, hbr⟩ := hinv
  have hA : (1 : Int) ≤ (a : Int) := by exact_mod_cast ha
  have hBsq : (0 : Int) ≤ (b : Int) * b := by positivity
  have hdypos : 0 < s.dy := by
    rw [hdy]
    have : (0 : Int) ≤ (s.y : Int) := Int.natCast_nonneg _
    nlinarith
  by_cases hxf : 2 * s.err ≥ s.dx
  · -- the x branch fires; since the break did not, x ≥ 1
    have hx1 : 1 ≤ s.x := by
      rcases Nat.eq_zero_or_pos s.x with h0 | h1
      · exact absurd ⟨hxf, h0⟩ hnb
      · exact h1
    have hcastx : ((s.x - 1 : Nat) : Int) = (s.x : Int) - 1 := by
      push_cast [Nat.cast_sub hx1]
      ring
    have hdx' : (ellX b s).dx = (1 - 2 * ((s.x - 1 : Nat) : Int)) * ((b : Int) * b) := by
      simp only [ellX]
      rw [hdx, hcastx]
      ring
    have herr' : (ellX b s).err
        = (b : Int) * b * (((s.x - 1 : Nat) : Int) - 1) ^ 2
          + (a : Int) * a * ((s.y : Int) + 1) ^ 2 - (a : Int) * a * ((b : Int) * b) := by
      simp only [ellX]
      rw [herr, hdx, hcastx]
      ring
    rw [if_pos hxf]
    by_cases hyf : 2 * s.err ≤ (ellX b s).dy
    · have hyf' : 2 * s.err ≤ s.dy := hyf
      have hylt : s.y < b := ellInv_y_lt ha ⟨hdx, hdy, herr, hxa, hyb, hbr⟩ hyf'
      rw [if_pos hyf]
      refine ⟨⟨?_, ?_, ?_, ?_, ?_, ?_⟩, ?_⟩
      · simp only [ellY]
        exact hdx'
      · simp only [ellY, ellX]
        rw [hdy]
        push_cast
        ring
      · simp only [ellY]
        rw [herr']
        simp only [ellY, ellX]
        rw [hdy]
        push_cast
        ring
      · simp only [ellY, ellX]
        omega
      · simp only [ellY, ellX]
        omega
      · -- if x just became 0, the next doubled error clears the new dx
        intro hx0
        simp only [ellY, ellX] at hx0 ⊢
        have hxeq : s.x = 1 := by omega
        have hdxval : s.dx = -((b : Int) * b) := by
          rw [hdx, hxeq]
          push_cast
          ring
        rw [hdxval] at hxf ⊢
        nlinarith [hdypos, mul_self_nonneg ((a : Int)), mul_self_nonneg ((b : Int))]
      · simp only [ellY, ellX]
        have hylt2 : s.y < b := ellInv_y_lt ha ⟨hdx, hdy, herr, hxa, hyb, hbr⟩ hyf'
        omega
    · rw [if_neg hyf]
      refine ⟨⟨hdx', by simp only [ellX]; exact hdy, herr', by simp only [ellX]; omega,
        by simp only [ellX]; omega, ?_⟩, by simp only [ellX]; omega⟩
      intro hx0
      simp only [ellX] at hx0 ⊢
      have hxeq : s.x = 1 := by omega
      have hdxval : s.dx = -((b : Int) * b) := by
        rw [hdx, hxeq]
        push_cast
        ring
      rw [hdxval] at hxf ⊢
      nlinarith [mul_self_nonneg ((b : Int))]
  · -- the x branch does not fire: x ≥ 1, dx ≤ 0 < dy, so the y branch must
    have hx1 : 1 ≤ s.x := by
      rcases Nat.eq_zero_or_pos s.x with h0 | h1
      · exact absurd (hbr h0) hxf
      · exact h1
    have hX1 : (1 : Int) ≤ (s.x : Int) := by exact_mod_cast hx1
    have hdxneg : s.dx ≤ 0 := by
      rw [hdx]
      nlinarith
    have hyf : 2 * s.err ≤ s.dy := by omega
    have hylt : s.y < b := ellInv_y_lt ha ⟨hdx, hdy, herr, hxa, hyb, hbr⟩ hyf
    rw [if_neg hxf, if_pos hyf]
    refine ⟨⟨by simp only [ellY]; exact hdx, ?_, ?_, by simp only [ellY]; omega,
      by simp only [ellY]; omega, ?_⟩, by simp only [ellY]; omega⟩
    · simp only [ellY]
      rw [hdy]
      push_cast
      ring
    · simp only [ellY]
      rw [herr, hdy]
      push_cast
      ring
    · intro hx0
      simp only [ellY] at hx0
      omega

lemma ellipseLoop_term {C R cx cy : Nat} {q0 q1 q2 q3 : Bool} {a b : Nat} (ha : 0 < a) :
    ∀ fuel s acc, EllInv a b s → s.x + (b - s.y) < fuel →
      (ellipseLoop C R cx cy q0 q1 q2 q3 a b fuel s acc).isSome := by
  intro fuel
  induction fuel with
  | zero => intro s acc _ hf; omega
  | succ fuel ih =>
    intro s acc hinv hf
    rw [ellipseLoop]
    by_cases hbreak : 2 * s.err ≥ s.dx ∧ s.x = 0
    · rw [if_pos hbreak]
      rfl
    · rw [if_neg hbreak]
      obtain ⟨hinv', hmeas⟩ := ellInv_step ha hinv hbreak
      exact ih _ _ hinv' (by omega)

/-- With `a = 0` the loop breaks in its very first iteration. -/
lemma ellipseLoop_a0 {C R cx cy : Nat} {q0 q1 q2 q3 : Bool} {b : Nat} (fuel : Nat) :
    (ellipseLoop C R cx cy q0 q1 q2 q3 0 b (fuel + 1) (initEll 0 b) []).isSome := by
  rw [ellipseLoop]
  have hcond : 2 * (initEll 0 b).err ≥ (initEll 0 b).dx ∧ (initEll 0 b).x = 0 := by
    constructor
    · show 2 * ((1 - 2 * ((0 : Nat) : Int)) * ((b : Int) * b) + ((0 : Nat) : Int) * ((0 : Nat) : Int))
        ≥ (1 - 2 * ((0 : Nat) : Int)) * ((b : Int) * b)
      have : (0 : Int) ≤ (b : Int) * b := by positivity
      push_cast
      nlinarith
    · rfl
  rw [if_pos hcond]
  rfl

/-- The main loop of `draw_ellipse` always reaches its `break` within
`a + b + 2` iterations. -/
lemma ellipseLoop_some (C R cx cy : Nat) (q0 q1 q2 q3 : Bool) (a b : Nat) :
    (ellipseLoop C R cx cy q0 q1 q2 q3 a b (a + b + 2) (initEll a b) []).isSome := by
  rcases Nat.eq_zero_or_pos a with ha | ha
  · subst ha
    have h : 0 + b + 2 = b + 1 + 1 := by omega
    rw [h]
    exact ellipseLoop_a0 (b + 1)
  · exact ellipseLoop_term ha _ _ [] (ellInv_init ha) (by simp only [initEll]; omega)


/-! ## Loop bounds (C7) -/

lemma candCell_length {C R : Nat} {q : Bool} {ox oy : Option Nat} :
    (candCell C R q ox oy).length ≤ 1 := by
  unfold candCell
  split
  · rcases ox with _ | x <;> rcases oy with _ | y <;> simp only [List.length_nil] <;> try omega
    split <;> simp
  · simp

lemma flatLoop_length {C R cx cy : Nat} {q01 q23 : Bool} :
    ∀ n y, (flatLoop C R cx cy q01 q23 n y).length ≤ 2 * n := by
  intro n
  induction n with
  | zero => intro y; simp [flatLoop]
  | succ n ih =>
    intro y
    rw [flatLoop]
    have h1 := @candCell_length C R q01 (some cx) (csub cy (y + 1))
    have h2 := @candCell_length C R q23 (some cx) (some (cy + (y + 1)))
    have h3 := ih (y + 1)
    simp only [List.length_append]
    omega

lemma flatCells_length {C R cx cy : Nat} {q01 q23 : Bool} {b y : Nat} :
    (flatCells C R cx cy q01 q23 b y).length ≤ 2 * (b - y) :=
  flatLoop_length (b - y) y

lemma numChunks_eq (data : List Byte) : numChunks data = (data.length + 65534) / 65535 := by
  generalize hn : data.length = n
  induction n using Nat.strong_induction_on generalizing data with
  | _ n ih =>
    by_cases hd : data = []
    · subst hd
      simp only [List.length_nil] at hn
      subst hn
      rw [numChunks]
      simp
    · have hlen0 : data.length ≠ 0 := fun hl => hd (List.eq_nil_of_length_eq_zero hl)
      rw [numChunks]
      simp only [hd, dite_false]
      by_cases hle : data.length ≤ 65535
      · have hmin : min data.length 65535 = data.length := by omega
        rw [hmin, List.drop_length]
        have h0 : numChunks ([] : List Byte) = 0 := by rw [numChunks]; rfl
        rw [h0]
        omega
      · have hmin : min data.length 65535 = 65535 := by omega
        rw [hmin]
        have hrec := ih (data.drop 65535).length
          (by simp only [List.length_drop]; omega) (data.drop 65535) rfl
        rw [hrec]
        simp only [List.length_drop]
        omega

/-- C7 as stated is false for the ellipse: with radii `a = b = 3` (the radii
`generate_nft` uses) the main loop needs 5 iterations, more than
`max(a, b) = 3`: after `max(a, b)` iterations it has not reached its
`break`. -/
theorem claim_C7_counterexample :
    ellipseLoop 32 32 7 9 false false true true 3 3 (max 3 3) (initEll 3 3) [] = none := by
  decide

/-- C7 amended: every loop is statically bounded, but the ellipse main loop's
bound is `a + b + 2`, not `max(a, b)`: `draw_line`'s loop runs exactly
`max(|dx|, |dy|)` iterations (painting that plus the start cell),
`draw_ellipse`'s main loop reaches its `break` within `a + b + 2` iterations
and its flat-ellipse fallback walks at most `b - y` steps, and `zlib_format`'s
chunking loop runs exactly `⌈len/65535⌉` times — for all inputs, including
degenerate radii and start = end lines. -/
theorem claim_C7_amended :
    (∀ st en : Nat × Nat,
        (lineTrace st en).length = max (absDiff en.1 st.1) (absDiff en.2 st.2) + 1) ∧
    (∀ (C R cx cy : Nat) (q0 q1 q2 q3 : Bool) (a b : Nat),
        (ellipseLoop C R cx cy q0 q1 q2 q3 a b (a + b + 2) (initEll a b) []).isSome) ∧
    (∀ (C R cx cy : Nat) (q01 q23 : Bool) (b y : Nat),
        (flatCells C R cx cy q01 q23 b y).length ≤ 2 * (b - y)) ∧
    (∀ data : List Byte, numChunks data = (data.length + 65534) / 65535) := by
  refine ⟨?_, ?_, ?_, numChunks_eq⟩
  · intro st en
    exact (lineTrace_spec st en).2.2.2.1
  · intro C R cx cy q0 q1 q2 q3 a b
    exact ellipseLoop_some C R cx cy q0 q1 q2 q3 a b
  · intro C R cx cy q01 q23 b y
    exact flatCells_length


/-! ## Pixel lookup lemmas for the gradient and the foreground shapes -/

/-- Painting a list of cells with a single color, in order (the shape of all
foreground drawing in `generate_nft`). -/
def paintCells (cells : List (Nat × Nat)) (c : Color) (px : Pixels) : Pixels :=
  cells.foldl (fun p q => setPixT p q.1 q.2 c) px

/-- The 32×32 grid after `generate_nft`'s background fill and gradient pass
(everything before the input-dependent foreground shapes). -/
def gradImg32 : Pixels :=
  draw_gradient 32 32 (Color.from_hex 0xff0000) (Color.from_hex 0x0000ff)
    (newImage 32 32 (Color.from_hex 0xe3066e))

lemma lookup_setPixT_ne {px : Pixels} {x y x' y' : Nat} {c : Color}
    (h : x' ≠ x ∨ y' ≠ y) : lookup (setPixT px x y c) x' y' = lookup px x' y' := by
  unfold lookup setPixT
  rw [List.getElem?_set]
  by_cases hy : y = y'
  · subst hy
    have hx : x' ≠ x := by tauto
    by_cases hlen : y < px.length
    · simp only [if_pos rfl, hlen, if_true]
      rw [List.getElem?_eq_getElem hlen]
      show ((px.getD y []).set x c)[x']? = px[y][x']?
      rw [List.getElem?_set_ne (fun he => hx he.symm),
        List.getD_eq_getElem px [] hlen]
    · simp only [if_pos rfl, hlen, if_false]
      rw [List.getElem?_eq_none_iff.mpr (by omega)]
      rfl
  · simp only [if_neg hy]

lemma lookup_setPixT_self {px : Pixels} {R C x y : Nat} {c : Color}
    (hwf : Wf px R C) (hx : x < C) (hy : y < R) :
    lookup (setPixT px x y c) x y = some c := by
  obtain ⟨hlen, hrows⟩ := hwf
  have hylen : y < px.length := by omega
  have hrl : (px.getD y []).length = C := by
    rw [List.getD_eq_getElem px [] hylen]
    exact hrows _ (List.getElem_mem hylen)
  unfold lookup setPixT
  rw [List.getElem?_set]
  simp only [if_pos rfl, hylen, if_true]
  show ((px.getD y []).set x c)[x]? = some c
  rw [List.getElem?_set]
  rw [if_pos rfl, if_pos (show x < (px.getD y []).length by rw [hrl]; exact hx)]

lemma setPixT_wf {px : Pixels} {R C x y : Nat} {c : Color}
    (hwf : Wf px R C) (hy : y < R) : Wf (setPixT px x y c) R C := by
  obtain ⟨hlen, hrows⟩ := hwf
  have hylen : y < px.length := by omega
  constructor
  · simp [setPixT, hlen]
  · intro row hrow
    rcases List.mem_or_eq_of_mem_set hrow with h | h
    · exact hrows _ h
    · subst h
      rw [List.length_set, List.getD_eq_getElem px [] hylen]
      exact hrows _ (List.getElem_mem hylen)

lemma lookup_paintCells_not_mem {c : Color} :
    ∀ (cells : List (Nat × Nat)) (px : Pixels) {x y : Nat}, (x, y) ∉ cells →
      lookup (paintCells cells c px) x y = lookup px x y := by
  intro cells
  induction cells with
  | nil => intro px x y _; rfl
  | cons q tl ih =>
    intro px x y hmem
    have hq : ¬(x = q.1 ∧ y = q.2) := by
      intro ⟨h1, h2⟩
      exact hmem (by rw [h1, h2]; exact List.mem_cons_self _ _)
    have hne : x ≠ q.1 ∨ y ≠ q.2 := by tauto
    have htl : (x, y) ∉ tl := fun h => hmem (List.mem_cons_of_mem _ h)
    simp only [paintCells, List.foldl_cons] at *
    rw [ih (setPixT px q.1 q.2 c) htl, lookup_setPixT_ne hne]

/-- Lookup after a column pass of `draw_gradient` (inner loop at fixed `x`). -/
lemma grad_col_lookup {R C : Nat} {g : Nat → Color} {x : Nat} (hx : x < C) :
    ∀ (ys : List Nat) (px : Pixels), Wf px R C → (∀ y ∈ ys, y < R) →
      ∀ x' y', lookup (ys.foldl (fun p y => setPixT p x y (g y)) px) x' y' =
        if x' = x ∧ y' ∈ ys then some (g y') else lookup px x' y' := by
  intro ys
  induction ys with
  | nil => intro px _ _ x' y'; simp
  | cons y0 tl ih =>
    intro px hwf hys x' y'
    have hy0 : y0 < R := hys _ (List.mem_cons_self _ _)
    have hwf' : Wf (setPixT px x y0 (g y0)) R C := setPixT_wf hwf hy0
    simp only [List.foldl_cons]
    rw [ih (setPixT px x y0 (g y0)) hwf' (fun y hy => hys _ (List.mem_cons_of_mem _ hy)) x' y']
    by_cases hx' : x' = x
    · subst hx'
      by_cases htl : y' ∈ tl
      · rw [if_pos ⟨rfl, htl⟩, if_pos ⟨rfl, List.mem_cons_of_mem _ htl⟩]
      · rw [if_neg (fun hcon => htl hcon.2)]
        by_cases hy0' : y' = y0
        · subst hy0'
          rw [if_pos ⟨rfl, List.mem_cons_self _ _⟩]
          exact lookup_setPixT_self hwf hx hy0
        · rw [if_neg (fun hcon => (List.mem_cons.mp hcon.2).elim hy0' htl)]
          exact lookup_setPixT_ne (Or.inr hy0')
    · rw [if_neg (fun hcon => hx' hcon.1), if_neg (fun hcon => hx' hcon.1)]
      exact lookup_setPixT_ne (Or.inl hx')

lemma grad_col_wf {R C : Nat} {g : Nat → Color} {x : Nat} :
    ∀ (ys : List Nat) (px : Pixels), Wf px R C → (∀ y ∈ ys, y < R) →
      Wf (ys.foldl (fun p y => setPixT p x y (g y)) px) R C := by
  intro ys
  induction ys with
  | nil => intro px hwf _; exact hwf
  | cons y0 tl ih =>
    intro px hwf hys
    simp only [List.foldl_cons]
    exact ih _ (setPixT_wf hwf (hys _ (List.mem_cons_self _ _)))
      (fun y hy => hys _ (List.mem_cons_of_mem _ hy))

/-- Lookup after the whole gradient pass: every in-bounds cell holds the
blended color. -/
lemma grad_outer_lookup {R C : Nat} {s e : Color} :
    ∀ (xs : List Nat) (px : Pixels), Wf px R C → (∀ x ∈ xs, x < C) →
      ∀ x' y', y' < R →
      lookup (xs.foldl
          (fun p x => (List.range R).foldl
            (fun p2 y => setPixT p2 x y (gradColor R C s e x y)) p) px) x' y' =
        if x' ∈ xs then some (gradColor R C s e x' y') else lookup px x' y' := by
  intro xs
  induction xs with
  | nil => intro px _ _ x' y' _; simp
  | cons x0 tl ih =>
    intro px hwf hxs x' y' hy'
    have hx0 : x0 < C := hxs _ (List.mem_cons_self _ _)
    have hwf' : Wf ((List.range R).foldl
        (fun p2 y => setPixT p2 x0 y (gradColor R C s e x0 y)) px) R C :=
      grad_col_wf _ px hwf (fun y hy => (List.mem_range).mp hy)
    simp only [List.foldl_cons]
    rw [ih _ hwf' (fun xx hxx => hxs _ (List.mem_cons_of_mem _ hxx)) x' y' hy']
    by_cases htl : x' ∈ tl
    · rw [if_pos htl, if_pos (List.mem_cons_of_mem _ htl)]
    · rw [if_neg htl]
      rw [grad_col_lookup hx0 (List.range R) px hwf (fun y hy => (List.mem_range).mp hy) x' y']
      by_cases hx0' : x' = x0
      · subst hx0'
        rw [if_pos ⟨rfl, List.mem_range.mpr hy'⟩, if_pos (List.mem_cons_self _ _)]
      · rw [if_neg (fun hcon => hx0' hcon.1),
          if_neg (fun hcon => (List.mem_cons.mp hcon).elim hx0' htl)]

lemma draw_gradient_lookup {R C : Nat} {s e : Color} {px : Pixels}
    (hwf : Wf px R C) {x y : Nat} (hx : x < C) (hy : y < R) :
    lookup (draw_gradient R C s e px) x y = some (gradColor R C s e x y) := by
  unfold draw_gradient
  rw [grad_outer_lookup (List.range C) px hwf (fun xx hxx => (List.mem_range).mp hxx) x y hy]
  simp [List.mem_range, hx]

lemma newImage_wf (R C : Nat) (bg : Color) : Wf (newImage R C bg) R C := by
  constructor
  · simp [newImage]
  · intro row hrow
    rw [List.eq_of_mem_replicate hrow]
    simp

lemma draw_gradient_wf {R C : Nat} {s e : Color} {px : Pixels} (hwf : Wf px R C) :
    Wf (draw_gradient R C s e px) R C := by
  unfold draw_gradient
  have hgen : ∀ (xs : List Nat) (px : Pixels), Wf px R C →
      Wf (xs.foldl
        (fun p x => (List.range R).foldl
          (fun p2 y => setPixT p2 x y (gradColor R C s e x y)) p) px) R C := by
    intro xs
    induction xs with
    | nil => intro px h; exact h
    | cons x0 tl ih =>
      intro px h
      simp only [List.foldl_cons]
      exact ih _ (grad_col_wf _ px h (fun y hy => (List.mem_range).mp hy))
  exact hgen _ px hwf

lemma gradImg32_wf : Wf gradImg32 32 32 := by
  unfold gradImg32
  exact draw_gradient_wf (newImage_wf 32 32 (Color.from_hex 0xe3066e))


/-! ## `generate_nft` (C8, C9, C10) -/

lemma setPix?_eq_setPixT {px : Pixels} {R C x y : Nat} {c : Color}
    (hwf : Wf px R C) (hx : x < C) (hy : y < R) :
    setPix? px x y c = some (setPixT px x y c) := by
  obtain ⟨hlen, hrows⟩ := hwf
  have hylen : y < px.length := by omega
  have hrow : px[y]? = some px[y] := List.getElem?_eq_getElem hylen
  have hrl : px[y].length = C := hrows _ (List.getElem_mem hylen)
  unfold setPix? setPixT
  rw [hrow]
  simp only [hrl, hx, if_true]
  rw [List.getD_eq_getElem px [] hylen]

lemma paintCells_wf {R C : Nat} {c : Color} :
    ∀ (cells : List (Nat × Nat)) (px : Pixels), Wf px R C →
      (∀ q ∈ cells, q.2 < R) → Wf (paintCells cells c px) R C := by
  intro cells
  induction cells with
  | nil => intro px hwf _; exact hwf
  | cons q tl ih =>
    intro px hwf hb
    simp only [paintCells, List.foldl_cons] at *
    exact ih _ (setPixT_wf hwf (hb q (List.mem_cons_self _ _)))
      (fun r hr => hb r (List.mem_cons_of_mem _ hr))

/-- For in-bounds cells, the panicking fold of `draw_line` succeeds and equals
the total painting fold. -/
lemma paintM_eq_paint {R C : Nat} {c : Color} :
    ∀ (cells : List (Nat × Nat)) (px : Pixels), Wf px R C →
      (∀ q ∈ cells, q.1 < C ∧ q.2 < R) →
      cells.foldlM (fun p q => setPix? p q.1 q.2 c) px = some (paintCells cells c px) := by
  intro cells
  induction cells with
  | nil => intro px _ _; rfl
  | cons q tl ih =>
    intro px hwf hb
    obtain ⟨hq1, hq2⟩ := hb q (List.mem_cons_self _ _)
    have hset := setPix?_eq_setPixT (c := c) hwf hq1 hq2
    rw [List.foldlM_cons, hset]
    show List.foldlM (fun p q => setPix? p q.1 q.2 c) (setPixT px q.1 q.2 c) tl
      = some (paintCells (q :: tl) c px)
    rw [ih _ (setPixT_wf hwf hq2) (fun r hr => hb r (List.mem_cons_of_mem _ hr))]
    rfl

/-- `generate_nft` succeeds and equals the gradient image overwritten with the
foreground color at exactly the shape cells. -/
lemma generate_nft_eq (addr : List Byte) (tid : Nat) :
    generate_nft addr tid
      = some (paintCells nftShapeCells (fgColor (nftSeed addr tid)) gradImg32) := by
  have hwf0 := gradImg32_wf
  have hL1 : ∀ q ∈ lineTrace (4, 4) (4, 6), q.1 < 32 ∧ q.2 < 32 := by decide
  have hL2 : ∀ q ∈ lineTrace (10, 4) (10, 6), q.1 < 32 ∧ q.2 < 32 := by decide
  set fg := fgColor (nftSeed addr tid) with hfg
  have hwf1 : Wf (paintCells (lineTrace (4, 4) (4, 6)) fg gradImg32) 32 32 :=
    paintCells_wf _ _ hwf0 (fun q hq => (hL1 q hq).2)
  show (draw_line gradImg32 (4, 4) (4, 6) fg).bind
      (fun img => (draw_line img (10, 4) (10, 6) fg).bind
        (fun img2 => some (draw_ellipse 32 32 7 9 3 3 false false true true fg img2)))
    = some (paintCells nftShapeCells fg gradImg32)
  rw [show draw_line gradImg32 (4, 4) (4, 6) fg
      = some (paintCells (lineTrace (4, 4) (4, 6)) fg gradImg32) from
    paintM_eq_paint _ _ hwf0 hL1]
  show (draw_line (paintCells (lineTrace (4, 4) (4, 6)) fg gradImg32) (10, 4) (10, 6) fg).bind
      (fun img2 => some (draw_ellipse 32 32 7 9 3 3 false false true true fg img2))
    = some (paintCells nftShapeCells fg gradImg32)
  rw [show draw_line (paintCells (lineTrace (4, 4) (4, 6)) fg gradImg32) (10, 4) (10, 6) fg
      = some (paintCells (lineTrace (10, 4) (10, 6)) fg
          (paintCells (lineTrace (4, 4) (4, 6)) fg gradImg32)) from
    paintM_eq_paint _ _ hwf1 hL2]
  show some (draw_ellipse 32 32 7 9 3 3 false false true true fg
      (paintCells (lineTrace (10, 4) (10, 6)) fg
        (paintCells (lineTrace (4, 4) (4, 6)) fg gradImg32)))
    = some (paintCells nftShapeCells fg gradImg32)
  simp only [draw_ellipse, paintCells, nftShapeCells, List.foldl_append]

/-- C9: `generate_nft` terminates without a panic for every address and token
id: every write of its fixed draw sequence stays inside the 32×32 grid, even
though `draw_line` indexes the grid without a bounds check. -/
theorem claim_C9 (addr : List Byte) (tid : Nat) : (generate_nft addr tid).isSome := by
  rw [generate_nft_eq]
  rfl

/-- C8: `generate_nft` is deterministic — it is a pure function of the
address and token id (the embedding has no ambient state), so two invocations
with identical arguments yield identical framebuffers and identical PNG
bytes. -/
theorem claim_C8 (addr addr' : List Byte) (tid tid' : Nat)
    (h1 : addr = addr') (h2 : tid = tid') :
    generate_nft addr tid = generate_nft addr' tid' ∧
    (generate_nft addr tid).map (make_png 32 32)
      = (generate_nft addr' tid').map (make_png 32 32) := by
  subst h1
  subst h2
  exact ⟨rfl, rfl⟩

theorem claim_C8_witness :
    generate_nft [] 0 = generate_nft [] 0 ∧
    (generate_nft [] 0).map (make_png 32 32) = (generate_nft [] 0).map (make_png 32 32) :=
  claim_C8 [] [] 0 0 rfl rfl

/-- C10: for any two inputs, the framebuffers agree on every cell not covered
by the two line segments or the ellipse arc, and those cells hold the
red-to-blue gradient value: only the foreground shape cells depend on the
inputs. -/
theorem claim_C10 (a1 a2 : List Byte) (t1 t2 : Nat) (x y : Nat)
    (hx : x < 32) (hy : y < 32) (hmem : (x, y) ∉ nftShapeCells) :
    ∃ p1 p2 : Pixels, generate_nft a1 t1 = some p1 ∧ generate_nft a2 t2 = some p2 ∧
      lookup p1 x y = lookup p2 x y ∧
      lookup p1 x y
        = some (gradColor 32 32 (Color.from_hex 0xff0000) (Color.from_hex 0x0000ff) x y) := by
  refine ⟨_, _, generate_nft_eq a1 t1, generate_nft_eq a2 t2, ?_, ?_⟩
  · rw [lookup_paintCells_not_mem nftShapeCells gradImg32 hmem,
      lookup_paintCells_not_mem nftShapeCells gradImg32 hmem]
  · rw [lookup_paintCells_not_mem nftShapeCells gradImg32 hmem]
    unfold gradImg32
    exact draw_gradient_lookup (newImage_wf 32 32 (Color.from_hex 0xe3066e)) hx hy

theorem claim_C10_witness :
    ∃ p1 p2 : Pixels, generate_nft [] 0 = some p1 ∧ generate_nft [1] 1 = some p2 ∧
      lookup p1 0 0 = lookup p2 0 0 ∧
      lookup p1 0 0
        = some (gradColor 32 32 (Color.from_hex 0xff0000) (Color.from_hex 0x0000ff) 0 0) :=
  claim_C10 [] [1] 0 1 0 0 (by decide) (by decide) (by decide)


/-! ## A standard inflate decoder (C6)

Modelled from the spec: the repository has no decompressor; §8 of the spec
requires that "a standard zlib/inflate decoder applied to `zlib_wrap(data)`
returns exactly `data`".  The decoder below reads the 2-byte zlib header,
then deflate blocks bit by bit (LSB-first bit packing): stored blocks in
full, and of the fixed-Huffman alphabet exactly the end-of-block symbol
(code 0000000) — the only non-stored construct a valid-but-empty stream such
as `78 9C 03 00 00 00 00 01` contains; anything else a real decoder would
accept makes it answer `none`, never a wrong value.  Finally it reads the
4-byte big-endian Adler-32 trailer and verifies it against the output. -/

/-- Read one bit (LSB-first within each byte). -/
def readBit : List Byte → Nat → Option (Nat × List Byte × Nat)
  | [], _ => none
  | b :: rest, i =>
    let bit := (b.val >>> i) &&& 1
    if i = 7 then some (bit, rest, 0) else some (bit, b :: rest, i + 1)

/-- Read `n` bits, assembled LSB-first. -/
def readBitsLSB : Nat → List Byte → Nat → Option (Nat × List Byte × Nat)
  | 0, bs, i => some (0, bs, i)
  | n + 1, bs, i =>
    match readBit bs i with
    | none => none
    | some (bit, bs1, i1) =>
      match readBitsLSB n bs1 i1 with
      | none => none
      | some (v, bs2, i2) => some (bit + 2 * v, bs2, i2)

/-- Skip to the next byte boundary. -/
def alignByte (bs : List Byte) (i : Nat) : List Byte :=
  if i = 0 then bs else bs.drop 1

/-- The deflate block loop: returns the decoded output and the bytes after
the final block (realigned).  `fuel` bounds the number of blocks. -/
def inflateBlocks : Nat → List Byte → Nat → List Byte → Option (List Byte × List Byte)
  | 0, _, _, _ => none
  | fuel + 1, bs, i, acc =>
    match readBit bs i with
    | none => none
    | some (fin, bs1, i1) =>
      match readBitsLSB 2 bs1 i1 with
      | none => none
      | some (btype, bs2, i2) =>
        if btype = 0 then
          match alignByte bs2 i2 with
          | l0 :: l1 :: c0 :: c1 :: rest =>
            let len := l0.val + 256 * l1.val
            if c0.val + 256 * c1.val = 65535 - len ∧ len ≤ rest.length then
              if fin = 1 then some (acc ++ rest.take len, rest.drop len)
              else inflateBlocks fuel (rest.drop len) 0 (acc ++ rest.take len)
            else none
          | _ => none
        else if btype = 1 then
          match readBitsLSB 7 bs2 i2 with
          | none => none
          | some (sym, bs3, i3) =>
            if sym = 0 then
              if fin = 1 then some (acc, alignByte bs3 i3)
              else inflateBlocks fuel bs3 i3 acc
            else none
        else none

/-- The zlib container decoder: header checks (`CM = 8`, header checksum
divisible by 31), the block loop, then the Adler-32 trailer check. -/
def inflate (zs : List Byte) : Option (List Byte) :=
  match zs with
  | cmf :: flg :: rest =>
    if cmf.val % 16 = 8 ∧ (cmf.val * 256 + flg.val) % 31 = 0 then
      match inflateBlocks (zs.length + 1) rest 0 [] with
      | some (out, rem) =>
        match rem with
        | a0 :: a1 :: a2 :: a3 :: _ =>
          if a0.val * 2 ^ 24 + a1.val * 2 ^ 16 + a2.val * 2 ^ 8 + a3.val = adler32 out
          then some out else none
        | _ => none
      | none => none
    else none
  | _ => none

lemma le16_val_eq {n : Nat} (hn : n ≤ 65535) :
    (byte n).val + 256 * (byte (n / 256)).val = n := by
  simp only [byte]
  omega

lemma compl16_val {n : Nat} (hn : n ≤ 65535) :
    (byte (2 ^ 64 - 1 - n)).val + 256 * (byte ((2 ^ 64 - 1 - n) / 256)).val = 65535 - n := by
  simp only [byte]
  omega

lemma be32_val {m : Nat} (hm : m < 2 ^ 32) :
    (byte (m / 16777216)).val * 2 ^ 24 + (byte (m / 65536)).val * 2 ^ 16
      + (byte (m / 256)).val * 2 ^ 8 + (byte m).val = m := by
  simp only [byte]
  omega

lemma adler_fold_bound :
    ∀ (l : List Byte) (ab : Nat × Nat), ab.1 < 65521 → ab.2 < 65521 →
      (l.foldl (fun (ab : Nat × Nat) b =>
        ((ab.1 + b.val) % 65521, (ab.2 + (ab.1 + b.val) % 65521) % 65521)) ab).1 < 65521 ∧
      (l.foldl (fun (ab : Nat × Nat) b =>
        ((ab.1 + b.val) % 65521, (ab.2 + (ab.1 + b.val) % 65521) % 65521)) ab).2 < 65521 := by
  intro l
  induction l with
  | nil => intro ab h1 h2; exact ⟨h1, h2⟩
  | cons b tl ih =>
    intro ab h1 h2
    simp only [List.foldl_cons]
    exact ih _ (Nat.mod_lt _ (by omega)) (Nat.mod_lt _ (by omega))

lemma adler32_lt (data : List Byte) : adler32 data < 2 ^ 32 := by
  have h := adler_fold_bound data (1, 0) (by omega) (by omega)
  simp only [adler32]
  omega

lemma zlibChunks_length_ge (data : List Byte) : data.length ≤ (zlibChunks data).length := by
  generalize hn : data.length = n
  induction n using Nat.strong_induction_on generalizing data with
  | _ n ih =>
    by_cases hd : data = []
    · subst hd; simp at hn; omega
    · have hlen0 : data.length ≠ 0 := fun hl => hd (List.eq_nil_of_length_eq_zero hl)
      rw [zlibChunks]
      simp only [hd, dite_false]
      have hrec := ih (data.drop (min data.length 65535)).length
        (by simp only [List.length_drop]; omega) _ rfl
      simp only [List.length_cons, List.length_append, le16, List.length_take,
        List.length_drop] at *
      omega

lemma inflateBlocks_stored1 (fuel : Nat)
    {n : Nat} (hn : n ≤ 65535) (chunk w acc : List Byte) (hlen : chunk.length = n) :
    inflateBlocks (fuel + 1)
      (byte 1 :: byte n :: byte (n / 256) :: byte (2 ^ 64 - 1 - n) ::
        byte ((2 ^ 64 - 1 - n) / 256) :: (chunk ++ w)) 0 acc
      = some (acc ++ chunk, w) := by
  have hlen' : (byte n).val + 256 * (byte (n / 256)).val = n := le16_val_eq hn
  have hcompl : (byte (2 ^ 64 - 1 - n)).val + 256 * (byte ((2 ^ 64 - 1 - n) / 256)).val
      = 65535 - ((byte n).val + 256 * (byte (n / 256)).val) := by
    rw [hlen', compl16_val hn]
  have htake : (chunk ++ w).take ((byte n).val + 256 * (byte (n / 256)).val) = chunk := by
    rw [hlen', ← hlen]
    exact List.take_left chunk w
  have hdrop : (chunk ++ w).drop ((byte n).val + 256 * (byte (n / 256)).val) = w := by
    rw [hlen', ← hlen]
    exact List.drop_left chunk w
  have hle : (byte n).val + 256 * (byte (n / 256)).val ≤ (chunk ++ w).length := by
    rw [hlen']
    simp only [List.length_append, hlen]
    omega
  have hb0 : ((byte 1).val >>> 0) &&& 1 = 1 := by decide
  have hb1 : ((byte 1).val >>> 1) &&& 1 = 0 := by decide
  have hb2 : ((byte 1).val >>> 2) &&& 1 = 0 := by decide
  simp only [inflateBlocks, readBit, readBitsLSB, alignByte, hb0, hb1, hb2, hcompl, hle,
    htake, hdrop, Nat.reduceEqDiff, Nat.reduceAdd, Nat.reduceMul, reduceIte,
    List.drop_succ_cons, List.drop_zero, eq_self_iff_true, and_self, and_true, true_and,
    if_true]

lemma inflateBlocks_stored0 (fuel : Nat)
    {n : Nat} (hn : n ≤ 65535) (chunk w acc : List Byte) (hlen : chunk.length = n) :
    inflateBlocks (fuel + 1)
      (byte 0 :: byte n :: byte (n / 256) :: byte (2 ^ 64 - 1 - n) ::
        byte ((2 ^ 64 - 1 - n) / 256) :: (chunk ++ w)) 0 acc
      = inflateBlocks fuel w 0 (acc ++ chunk) := by
  have hlen' : (byte n).val + 256 * (byte (n / 256)).val = n := le16_val_eq hn
  have hcompl : (byte (2 ^ 64 - 1 - n)).val + 256 * (byte ((2 ^ 64 - 1 - n) / 256)).val
      = 65535 - ((byte n).val + 256 * (byte (n / 256)).val) := by
    rw [hlen', compl16_val hn]
  have htake : (chunk ++ w).take ((byte n).val + 256 * (byte (n / 256)).val) = chunk := by
    rw [hlen', ← hlen]
    exact List.take_left chunk w
  have hdrop : (chunk ++ w).drop ((byte n).val + 256 * (byte (n / 256)).val) = w := by
    rw [hlen', ← hlen]
    exact List.drop_left chunk w
  have hle : (byte n).val + 256 * (byte (n / 256)).val ≤ (chunk ++ w).length := by
    rw [hlen']
    simp only [List.length_append, hlen]
    omega
  have hb0 : ((byte 0).val >>> 0) &&& 1 = 0 := by decide
  have hb1 : ((byte 0).val >>> 1) &&& 1 = 0 := by decide
  have hb2 : ((byte 0).val >>> 2) &&& 1 = 0 := by decide
  simp only [inflateBlocks, readBit, readBitsLSB, alignByte, hb0, hb1, hb2, hcompl, hle,
    htake, hdrop, Nat.reduceEqDiff, Nat.reduceAdd, Nat.reduceMul, reduceIte,
    List.drop_succ_cons, List.drop_zero, eq_self_iff_true, and_self, and_true, true_and,
    if_true]

lemma one_byte_eq : (1 : Byte) = byte 1 := by decide

lemma zero_byte_eq : (0 : Byte) = byte 0 := by decide

lemma inflateBlocks_chunks (data : List Byte) (hd : data ≠ []) :
    ∀ (fuel : Nat), data.length + 1 ≤ fuel →
      ∀ (tail acc : List Byte),
        inflateBlocks fuel (zlibChunks data ++ tail) 0 acc = some (acc ++ data, tail) := by
  generalize hN : data.length = N
  induction N using Nat.strong_induction_on generalizing data with
  | _ N ih =>
    intro fuel hfuel tail acc
    have hlen0 : data.length ≠ 0 := fun hl => hd (List.eq_nil_of_length_eq_zero hl)
    obtain ⟨f, rfl⟩ : ∃ f, fuel = f + 1 := ⟨fuel - 1, by omega⟩
    rw [zlibChunks]
    simp only [hd, dite_false, le16, List.cons_append, List.append_assoc, List.nil_append]
    by_cases hrest : data.drop (min data.length 65535) = []
    · -- last chunk: the whole data fits, flag byte 1
      have hle : data.length ≤ 65535 := by
        have := List.length_eq_zero.mpr hrest
        simp only [List.length_drop] at this
        omega
      have hmin : min data.length 65535 = data.length := by omega
      have htake : data.take (min data.length 65535) = data := by
        rw [hmin]; exact List.take_of_length_le (Nat.le_refl _)
      rw [hrest, htake, hmin, if_pos rfl, one_byte_eq]
      have hnil : zlibChunks ([] : List Byte) = [] := by rw [zlibChunks]; rfl
      rw [hnil, List.nil_append]
      have := inflateBlocks_stored1 f hle data tail acc rfl
      simpa only [List.cons_append] using this
    · -- not the last chunk: flag byte 0, recurse on the rest
      have hgt : 65535 < data.length := by
        by_contra hc
        apply hrest
        have : min data.length 65535 = data.length := by omega
        rw [this, List.drop_length]
      have hmin : min data.length 65535 = 65535 := by omega
      rw [if_neg hrest, hmin, zero_byte_eq]
      have htklen : (data.take 65535).length = 65535 := by
        simp only [List.length_take]
        omega
      have hstep := inflateBlocks_stored0 f (show (65535 : Nat) ≤ 65535 by omega)
        (data.take 65535) (zlibChunks (data.drop 65535) ++ tail) acc htklen
      rw [hmin] at hrest
      have hmlt : (data.drop 65535).length < N := by
        simp only [List.length_drop]
        omega
      have hmfuel : (data.drop 65535).length + 1 ≤ f := by
        simp only [List.length_drop]
        omega
      have hrec := ih (data.drop 65535).length hmlt (data.drop 65535) hrest
        rfl f hmfuel tail (acc ++ data.take 65535)
      calc
        inflateBlocks (f + 1)
            (byte 0 :: byte 65535 :: byte (65535 / 256) :: byte (2 ^ 64 - 1 - 65535) ::
              byte ((2 ^ 64 - 1 - 65535) / 256) ::
              (data.take 65535 ++ (zlibChunks (data.drop 65535) ++ tail))) 0 acc
            = inflateBlocks f (zlibChunks (data.drop 65535) ++ tail) 0
                (acc ++ data.take 65535) := hstep
        _ = some (acc ++ data.take 65535 ++ data.drop 65535, tail) := hrec
        _ = some (acc ++ data, tail) := by
            rw [List.append_assoc, List.take_append_drop]

/-- C6: `inflate` (the spec-modelled standard zlib/inflate decoder: header,
stored deflate blocks, fixed-Huffman end-of-block, big-endian Adler-32
trailer check) applied to `zlib_format data` returns exactly `data`, for
every byte sequence `data` — `inflate` is a left inverse of `zlib_format`,
across the 65535-byte chunk boundary. -/
theorem claim_C6 (data : List Byte) : inflate (zlib_format data) = some data := by
  by_cases hd : data = []
  · subst hd
    decide
  · rw [zlib_format, if_neg hd]
    show inflate (byte 0x08 :: byte 0x1d :: (zlibChunks data ++ be32 (adler32 data)))
      = some data
    rw [inflate]
    rw [if_pos (by decide :
      (byte 0x08).val % 16 = 8 ∧ ((byte 0x08).val * 256 + (byte 0x1d).val) % 31 = 0)]
    have hfuel : data.length + 1
        ≤ (byte 0x08 :: byte 0x1d :: (zlibChunks data ++ be32 (adler32 data))).length + 1 := by
      have := zlibChunks_length_ge data
      simp only [List.length_cons, List.length_append]
      omega
    rw [inflateBlocks_chunks data hd _ hfuel (be32 (adler32 data)) []]
    simp only [be32, List.nil_append]
    rw [if_pos (be32_val (adler32_lt data))]

end StylusNft
